import Mathlib

/-!
Shallow embedding of the BWT + RLE compressor from `src/bwtstring.rs` and
`src/main.rs`, together with theorems checking the natural-language
specification against it.

Conventions of the embedding:
* Rust `u8` payloads are modelled as `Nat`; where a claim quantifies over
  byte buffers, the hypothesis `∀ b ∈ B, b < 256` restricts to real inputs.
* `VecDeque<BWTByte>` is modelled as `List BWTByte`; `usize` as `Nat`.
* The `reverse_transform` loop may not terminate on malformed input, so it
  is embedded with explicit fuel returning `Option`; `none` means the loop
  has neither produced a value nor broken out within `fuel` iterations
  (or hit an out-of-bounds index, which in Rust panics).
* The loop is additionally instrumented with a counter of productive steps
  (symbols pushed); the counter does not influence the computed value.
-/

open scoped List

/-- `BWTByte` from the source: a byte value or the sentinel marker. -/
inductive BWTByte where
  | byte (b : Nat)
  | sentinel
deriving DecidableEq, Repr

/-- The `PartialOrd`/`Ord` implementation on `BWTByte` from the source:
sentinel sorts below every byte, bytes compare as unsigned integers. -/
def BWTByte.cmp : BWTByte → BWTByte → Ordering
  | .sentinel, .sentinel => .eq
  | .sentinel, .byte _ => .lt
  | .byte _, .sentinel => .gt
  | .byte a, .byte b => compare a b

/-- `a` sorts no later than `b` (the comparison a stable sort consults). -/
def BWTByte.le (a b : BWTByte) : Bool :=
  match a.cmp b with
  | .gt => false
  | _ => true

/-- Order embedding of `BWTByte` into `Nat` (sentinel below every byte),
used only to reason about the comparisons. -/
def BWTByte.toNat : BWTByte → Nat
  | .sentinel => 0
  | .byte b => b + 1

/-- `is_sentinel` from the source. -/
def BWTByte.is_sentinel : BWTByte → Bool
  | .byte _ => false
  | .sentinel => true

/-- The payload extraction used by `main.rs` when stripping the sentinel. -/
def BWTByte.byteVal : BWTByte → Option Nat
  | .byte b => some b
  | .sentinel => none

/-- `Iterator::cmp` on two symbol sequences: lexicographic comparison,
a strict prefix ordering below any extension. Used by `lex_sort`. -/
def lexCmp : List BWTByte → List BWTByte → Ordering
  | [], [] => .eq
  | [], _ :: _ => .lt
  | _ :: _, [] => .gt
  | a :: as, b :: bs =>
    match a.cmp b with
    | .eq => lexCmp as bs
    | o => o

/-- `a` sorts no later than `b` under `lexCmp`. -/
def lexLe (a b : List BWTByte) : Bool :=
  match lexCmp a b with
  | .gt => false
  | _ => true

/-- The sentinel-augmented symbol sequence built from a byte buffer
(what `BWTStr::new` stores). -/
def augmented (B : List Nat) : List BWTByte :=
  B.map .byte ++ [.sentinel]

/-- The last symbol of a (nonempty) rotation-matrix row. -/
def lastB (m : List BWTByte) : BWTByte :=
  m.getLastD .sentinel

/-- The first symbol of a (nonempty) rotation-matrix row. -/
def headB (m : List BWTByte) : BWTByte :=
  m.headD .sentinel

/-- `BWTStr` from the source: the symbol sequence plus the recorded
sentinel index. -/
structure BWTStr where
  inner : List BWTByte
  sentinel_index : Nat
deriving DecidableEq, Repr

namespace BWTStr

/-- `BWTStr::new`: append the sentinel, record `sentinel_index = len`
(the length *after* the push — one past the sentinel's actual position). -/
def new (bytes : List Nat) : BWTStr :=
  { inner := bytes.map .byte ++ [.sentinel], sentinel_index := bytes.length + 1 }

/-- `BWTStr::new_with_sentinal`: insert the sentinel at the given index.
(`VecDeque::insert` panics when the index exceeds the length; the claims
only use indices within range, where `List.insertIdx` agrees.) -/
def new_with_sentinal (bytes : List Nat) (sentinal_index : Nat) : BWTStr :=
  { inner := (bytes.map .byte).insertIdx sentinal_index .sentinel,
    sentinel_index := sentinal_index }

/-- `BWTStr::len`. -/
def len (s : BWTStr) : Nat := s.inner.length

/-- `BWTStr::rotate`: move the front symbol to the back and update the
recorded sentinel index by `(i + len - 1) % len`. -/
def rotate (s : BWTStr) : BWTStr :=
  match s.inner with
  | [] => s
  | x :: xs =>
    { inner := xs ++ [x],
      sentinel_index := (s.sentinel_index + (xs.length + 1) - 1) % (xs.length + 1) }

/-- The loop body of `all_rotations`: rotate `n` more times, collecting
each intermediate state. -/
def rotationsAux : BWTStr → Nat → List BWTStr
  | _, 0 => []
  | cur, n + 1 => cur.rotate :: rotationsAux cur.rotate n

/-- `BWTStr::all_rotations`: pushes the current state, then rotates
`self.len()` times pushing after each rotation — `len + 1` entries. -/
def all_rotations (s : BWTStr) : List BWTStr :=
  s :: rotationsAux s s.len

/-- `BWTStr::lex_sort`: stable sort by `Iterator::cmp` on `inner`. -/
def lex_sort (v : List BWTStr) : List BWTStr :=
  v.mergeSort (fun a b => lexLe a.inner b.inner)

/-- `BWTStr::all_rotations_sorted`. -/
def all_rotations_sorted (s : BWTStr) : List BWTStr :=
  lex_sort s.all_rotations

/-- `BWTStr::forward_transform`: keep the last symbol of every sorted
rotation except the one whose recorded sentinel index equals `self.len()`;
record the position of that dropped rotation. (`iter().last().unwrap()`
and `position(..).unwrap()` never fail on the inputs the program builds;
`getLast?` inside `filterMap` and `findIdx` model them totally.) -/
def forward_transform (s : BWTStr) : BWTStr :=
  let rotations := s.all_rotations_sorted
  { inner := rotations.filterMap fun r =>
      if r.sentinel_index = s.len then none else r.inner.getLast?,
    sentinel_index := rotations.findIdx fun r => r.sentinel_index == s.len }

/-- `BWTStr::as_sorted`: sort the symbols, set the recorded index to 0. -/
def as_sorted (s : BWTStr) : BWTStr :=
  { inner := s.inner.mergeSort BWTByte.le, sentinel_index := 0 }

/-- The occurrence-counting pass of `rank_vec`, with the 256-slot counter
array modelled as a map from byte values to counts. -/
def rank_go (occ : Nat → Nat) : List BWTByte → List Nat
  | [] => []
  | .sentinel :: xs => 0 :: rank_go occ xs
  | .byte b :: xs => occ b :: rank_go (fun x => if x = b then occ x + 1 else occ x) xs

/-- `BWTStr::rank_vec`. -/
def rank_vec (s : BWTStr) : List Nat :=
  rank_go (fun _ => 0) s.inner

end BWTStr

/-- The index lookup in `reverse_transform`:
`left.inner.iter().enumerate().filter(|(_, ib)| b == **ib).nth(rank)`,
returning the position of the `rank`-th occurrence of `v`. -/
def nth_occurrence (l : List BWTByte) (v : BWTByte) (rank : Nat) : Option Nat :=
  ((l.enum.filter fun p => p.2 == v)[rank]?).map (·.1)

/-- The `Column` state of the `reverse_transform` loop. -/
inductive Column where
  | left
  | right
deriving DecidableEq, Repr

/-- The `reverse_transform` loop, with explicit fuel (one unit per loop
iteration) and a counter of productive steps (front-pushed symbols).
`rt` is `right.inner`, `lf` is `left.inner`, `ranks` is `self.rank_vec()`.
`none` models non-termination within `fuel` or an indexing panic. -/
def reverseLoop (rt lf : List BWTByte) (ranks : List Nat) :
    Nat → Column → Nat → List BWTByte → Nat → Option (List BWTByte × Nat)
  | 0, _, _, _, _ => none
  | fuel + 1, col, i, acc, steps =>
    match col, rt[i]? with
    | _, none => none
    | _, some .sentinel => some (acc, steps)
    | .left, some (.byte _) => reverseLoop rt lf ranks fuel .right i acc steps
    | .right, some (.byte b) =>
      match ranks[i]? with
      | none => none
      | some rank =>
        match nth_occurrence lf (.byte b) rank with
        | none => none
        | some i' => reverseLoop rt lf ranks fuel .left i' (.byte b :: acc) (steps + 1)

namespace BWTStr

/-- `BWTStr::reverse_transform`: run the loop from column `Left`, index 0,
then record `sentinel_index = inner.len()` on the result. -/
def reverse_transform (s : BWTStr) (fuel : Nat) : Option BWTStr :=
  (reverseLoop s.inner (as_sorted s).inner (rank_vec s) fuel .left 0 [] 0).map
    fun p => { inner := p.1, sentinel_index := p.1.length }

/-- The number of productive steps the `reverse_transform` loop performs. -/
def reverse_transform_steps (s : BWTStr) (fuel : Nat) : Option Nat :=
  (reverseLoop s.inner (as_sorted s).inner (rank_vec s) fuel .left 0 [] 0).map (·.2)

end BWTStr

/-- The run-length encoding loop of `rle_write`, at the level of
`(byte, run_length)` records. The state carries the run in progress
(`some (b, cnt)`) or `none` before any byte is seen / after a sentinel
breaks a run; a run is flushed as a 65535-chunk as soon as its count
reaches `u16::MAX`, resetting the count to 0. -/
def rleGo : Option (Nat × Nat) → List BWTByte → List (Nat × Nat)
  | none, [] => []
  | some (b, cnt), [] => [(b, cnt)]
  | none, .sentinel :: xs => rleGo none xs
  | none, .byte b :: xs => rleGo (some (b, 1)) xs
  | some (b, cnt), .sentinel :: xs => (b, cnt) :: rleGo none xs
  | some (b, cnt), .byte b' :: xs =>
    if b' = b then
      if cnt + 1 = 65535 then (b, 65535) :: rleGo (some (b, 0)) xs
      else rleGo (some (b, cnt + 1)) xs
    else (b, cnt) :: rleGo (some (b', 1)) xs

/-- The records `rle_write` emits for a symbol sequence. -/
def rleRecords (l : List BWTByte) : List (Nat × Nat) :=
  rleGo none l

/-- `u16::to_le_bytes`: two little-endian bytes. -/
def u16le (cnt : Nat) : List Nat :=
  [cnt % 256, cnt / 256 % 256]

/-- `usize::to_le_bytes` on a 64-bit target: eight little-endian bytes. -/
def leBytes (w n : Nat) : List Nat :=
  (List.range w).map fun i => n / 256 ^ i % 256

/-- The byte stream the `rle_write` loop emits (everything after the
8-byte header): each flush writes the literal byte then the two
little-endian count bytes. -/
def rleBytesGo : Option (Nat × Nat) → List BWTByte → List Nat
  | none, [] => []
  | some (b, cnt), [] => b :: u16le cnt
  | none, .sentinel :: xs => rleBytesGo none xs
  | none, .byte b :: xs => rleBytesGo (some (b, 1)) xs
  | some (b, cnt), .sentinel :: xs => (b :: u16le cnt) ++ rleBytesGo none xs
  | some (b, cnt), .byte b' :: xs =>
    if b' = b then
      if cnt + 1 = 65535 then (b :: u16le 65535) ++ rleBytesGo (some (b, 0)) xs
      else rleBytesGo (some (b, cnt + 1)) xs
    else (b :: u16le cnt) ++ rleBytesGo (some (b', 1)) xs

namespace BWTStr

/-- `BWTStr::rle_write`: the full serialized output — the
`sentinel_index` as an 8-byte little-endian header, then the run-length
encoded body. -/
def rle_write (s : BWTStr) : List Nat :=
  leBytes 8 s.sentinel_index ++ rleBytesGo none s.inner

end BWTStr

/-- The bytes of one `(byte, run_length)` record: the literal byte then
the 16-bit little-endian run length. -/
def recordBytes (r : Nat × Nat) : List Nat :=
  [r.1, r.2 % 256, r.2 / 256 % 256]

/-- The error type of the RLE decoder. -/
inductive RleError where
  | malformedStream
deriving DecidableEq, Repr

/-- Modelled from the spec: the record-expansion phase of `rle_read`
(the function `main.rs` calls but `src/` does not define). Reads
`(byte, run_length)` records until the input is exhausted; a dangling
literal byte without a full 2-byte count is a malformed stream. -/
def decodeRecords : List Nat → Option (List Nat)
  | [] => some []
  | [_] => none
  | [_, _] => none
  | b :: lo :: hi :: rest =>
    (decodeRecords rest).map fun tail => List.replicate (lo + 256 * hi) b ++ tail

/-- The little-endian value of a byte list (reads the 8-byte header). -/
def fromLeBytes (l : List Nat) : Nat :=
  l.foldr (fun b acc => b % 256 + 256 * acc) 0

/-- Modelled from the spec: `BWTStr::rle_read`, which `main.rs:130` calls
but `src/` never defines. Per §4.4 of the spec: read the 8-byte
little-endian `sentinel_index` header (a shorter stream is a malformed
stream), expand the records, reject a `sentinel_index` outside
`[0, decoded_length]`, and reinsert the sentinel at `sentinel_index`. -/
def rle_read (stream : List Nat) : Except RleError BWTStr :=
  if stream.length < 8 then .error .malformedStream
  else
    match decodeRecords (stream.drop 8) with
    | none => .error .malformedStream
    | some bytes =>
      let si := fromLeBytes (stream.take 8)
      if bytes.length < si then .error .malformedStream
      else .ok (BWTStr.new_with_sentinal bytes si)

/-! ### Order lemmas for `BWTByte.cmp` and `lexCmp` -/

theorem BWTByte.toNat_inj {a b : BWTByte} (h : a.toNat = b.toNat) : a = b := by
  cases a <;> cases b <;> simp [BWTByte.toNat] at h ⊢
  omega

theorem BWTByte.cmp_eq_compare (a b : BWTByte) : a.cmp b = compare a.toNat b.toNat := by
  cases a with
  | byte a =>
    cases b with
    | byte b =>
      simp only [BWTByte.cmp, BWTByte.toNat]
      rcases Nat.lt_trichotomy a b with h | h | h
      · rw [Nat.compare_eq_lt.mpr h, Nat.compare_eq_lt.mpr (by omega)]
      · subst h
        rw [Nat.compare_eq_eq.mpr rfl, Nat.compare_eq_eq.mpr rfl]
      · rw [Nat.compare_eq_gt.mpr h, Nat.compare_eq_gt.mpr (by omega)]
    | sentinel =>
      simp only [BWTByte.cmp, BWTByte.toNat]
      exact (Nat.compare_eq_gt.mpr (by omega)).symm
  | sentinel =>
    cases b with
    | byte b =>
      simp only [BWTByte.cmp, BWTByte.toNat]
      exact (Nat.compare_eq_lt.mpr (by omega)).symm
    | sentinel => rfl

theorem BWTByte.cmp_eq_eq {a b : BWTByte} : a.cmp b = .eq ↔ a = b := by
  rw [BWTByte.cmp_eq_compare, Nat.compare_eq_eq]
  exact ⟨fun h => BWTByte.toNat_inj h, fun h => by rw [h]⟩

theorem BWTByte.cmp_eq_lt {a b : BWTByte} : a.cmp b = .lt ↔ a.toNat < b.toNat := by
  rw [BWTByte.cmp_eq_compare, Nat.compare_eq_lt]

theorem BWTByte.cmp_eq_gt {a b : BWTByte} : a.cmp b = .gt ↔ b.toNat < a.toNat := by
  rw [BWTByte.cmp_eq_compare, Nat.compare_eq_gt]

theorem BWTByte.cmp_self (a : BWTByte) : a.cmp a = .eq :=
  BWTByte.cmp_eq_eq.mpr rfl

theorem BWTByte.le_iff {a b : BWTByte} : a.le b = true ↔ a.toNat ≤ b.toNat := by
  rcases h : a.cmp b with _ | _ | _ <;> simp only [BWTByte.le, h]
  · simp only [true_iff]
    exact Nat.le_of_lt (BWTByte.cmp_eq_lt.mp h)
  · simp only [true_iff]
    exact Nat.le_of_eq (congrArg BWTByte.toNat (BWTByte.cmp_eq_eq.mp h))
  · simp only [Bool.false_eq_true, false_iff, Nat.not_le]
    exact BWTByte.cmp_eq_gt.mp h

theorem BWTByte.le_refl (a : BWTByte) : a.le a = true :=
  BWTByte.le_iff.mpr (Nat.le_refl _)

theorem BWTByte.le_trans {a b c : BWTByte} (h₁ : a.le b = true) (h₂ : b.le c = true) :
    a.le c = true :=
  BWTByte.le_iff.mpr (Nat.le_trans (BWTByte.le_iff.mp h₁) (BWTByte.le_iff.mp h₂))

theorem BWTByte.le_total (a b : BWTByte) : (a.le b || b.le a) = true := by
  rcases Nat.le_total a.toNat b.toNat with h | h <;>
    simp [BWTByte.le_iff.mpr h]

theorem BWTByte.le_antisymm {a b : BWTByte} (h₁ : a.le b = true) (h₂ : b.le a = true) :
    a = b :=
  BWTByte.toNat_inj (Nat.le_antisymm (BWTByte.le_iff.mp h₁) (BWTByte.le_iff.mp h₂))

theorem lexCmp_self (a : List BWTByte) : lexCmp a a = .eq := by
  induction a with
  | nil => rfl
  | cons x as ih => simp [lexCmp, BWTByte.cmp_self, ih]

theorem lexCmp_eq_eq {a b : List BWTByte} : lexCmp a b = .eq ↔ a = b := by
  induction a generalizing b with
  | nil => cases b <;> simp [lexCmp]
  | cons x as ih =>
    cases b with
    | nil => simp [lexCmp]
    | cons y bs =>
      unfold lexCmp
      rcases hc : x.cmp y with _ | _ | _ <;> simp only [hc]
      · have hne : x ≠ y := by
          intro h
          rw [h, BWTByte.cmp_self] at hc
          exact absurd hc (by simp)
        simp [hne]
      · have hxy : x = y := BWTByte.cmp_eq_eq.mp hc
        simp [hxy, ih]
      · have hne : x ≠ y := by
          intro h
          rw [h, BWTByte.cmp_self] at hc
          exact absurd hc (by simp)
        simp [hne]

theorem lexCmp_swap (a b : List BWTByte) : (lexCmp a b).swap = lexCmp b a := by
  induction a generalizing b with
  | nil => cases b <;> rfl
  | cons x as ih =>
    cases b with
    | nil => rfl
    | cons y bs =>
      unfold lexCmp
      rcases hc : x.cmp y with _ | _ | _ <;> simp only [hc]
      · have hyx : y.cmp x = .gt := BWTByte.cmp_eq_gt.mpr (BWTByte.cmp_eq_lt.mp hc)
        simp [hyx, Ordering.swap]
      · have hyx : y.cmp x = .eq := by
          rw [BWTByte.cmp_eq_eq.mp hc]
          exact BWTByte.cmp_self y
        simp [hyx, ih]
      · have hyx : y.cmp x = .lt := BWTByte.cmp_eq_lt.mpr (BWTByte.cmp_eq_gt.mp hc)
        simp [hyx, Ordering.swap]

theorem lexLe_refl (a : List BWTByte) : lexLe a a = true := by
  simp [lexLe, lexCmp_self]

theorem lexLe_total (a b : List BWTByte) : (lexLe a b || lexLe b a) = true := by
  rcases h : lexCmp a b with _ | _ | _ <;> simp only [lexLe, h]
  · simp
  · simp
  · have : lexCmp b a = .lt := by
      rw [← lexCmp_swap, h]
      rfl
    simp [this]

theorem lexLe_antisymm {a b : List BWTByte} (h₁ : lexLe a b = true) (h₂ : lexLe b a = true) :
    a = b := by
  rcases h : lexCmp a b with _ | _ | _
  · have hba : lexCmp b a = .gt := by
      rw [← lexCmp_swap, h]
      rfl
    simp only [lexLe, hba] at h₂
    exact absurd h₂ (by simp)
  · exact lexCmp_eq_eq.mp h
  · simp only [lexLe, h] at h₁
    exact absurd h₁ (by simp)

theorem lexLe_trans {a b c : List BWTByte} (h₁ : lexLe a b = true) (h₂ : lexLe b c = true) :
    lexLe a c = true := by
  induction a generalizing b c with
  | nil => cases c <;> simp [lexLe, lexCmp]
  | cons x as ih =>
    cases b with
    | nil => simp [lexLe, lexCmp] at h₁
    | cons y bs =>
      cases c with
      | nil => simp [lexLe, lexCmp] at h₂
      | cons z cs =>
        simp only [lexLe, lexCmp] at h₁ h₂ ⊢
        rcases hxy : x.cmp y with _ | _ | _ <;> simp only [hxy] at h₁
        · rcases hyz : y.cmp z with _ | _ | _ <;> simp only [hyz] at h₂
          · have hxz : x.cmp z = .lt := BWTByte.cmp_eq_lt.mpr
              (Nat.lt_trans (BWTByte.cmp_eq_lt.mp hxy) (BWTByte.cmp_eq_lt.mp hyz))
            simp [hxz]
          · have hxz : x.cmp z = .lt := by
              rw [← BWTByte.cmp_eq_eq.mp hyz]
              exact hxy
            simp [hxz]
          · exact absurd h₂ (by simp)
        · have hxy' : x = y := BWTByte.cmp_eq_eq.mp hxy
          subst hxy'
          rcases hyz : x.cmp z with _ | _ | _ <;> simp only [hyz] at h₂ ⊢
          · exact ih h₁ h₂
          · exact absurd h₂ (by simp)
        · exact absurd h₁ (by simp)

theorem lexLe_head {x y : BWTByte} {as bs : List BWTByte}
    (h : lexLe (x :: as) (y :: bs) = true) : x.le y = true := by
  simp only [lexLe, lexCmp] at h
  rcases hc : x.cmp y with _ | _ | _ <;> simp only [BWTByte.le, hc]
  simp only [hc] at h
  exact absurd h (by simp)

theorem lexCmp_cons_self (c : BWTByte) (u v : List BWTByte) :
    lexCmp (c :: u) (c :: v) = lexCmp u v := by
  simp [lexCmp, BWTByte.cmp_self]

theorem lexCmp_snoc {u v : List BWTByte} (c : BWTByte) (h : u.length = v.length) :
    lexCmp (u ++ [c]) (v ++ [c]) = lexCmp u v := by
  induction u generalizing v with
  | nil =>
    cases v with
    | nil => simp [lexCmp, BWTByte.cmp_self]
    | cons y bs => simp at h
  | cons x as ih =>
    cases v with
    | nil => simp at h
    | cons y bs =>
      simp only [List.cons_append]
      unfold lexCmp
      rcases hc : x.cmp y with _ | _ | _ <;> simp only [hc]
      exact ih (by simpa using h)

/-! ### Run-length encoding lemmas -/

theorem rleGo_flush {b cnt : Nat} {rest : List BWTByte}
    (h : rest.head? ≠ some (.byte b)) :
    rleGo (some (b, cnt)) rest = (b, cnt) :: rleGo none rest := by
  cases rest with
  | nil => rfl
  | cons x xs =>
    cases x with
    | sentinel => rfl
    | byte b' =>
      have hne : b' ≠ b := by
        intro hb
        exact h (by rw [hb]; rfl)
      simp [rleGo, hne]

theorem rleGo_cons_run {b cnt : Nat} (xs : List BWTByte) :
    rleGo (some (b, cnt)) (.byte b :: xs) =
      if cnt + 1 = 65535 then (b, 65535) :: rleGo (some (b, 0)) xs
      else rleGo (some (b, cnt + 1)) xs := by
  simp [rleGo]

theorem rleGo_replicate {b : Nat} {rest : List BWTByte}
    (hrest : rest.head? ≠ some (.byte b)) :
    ∀ (n cnt : Nat), cnt < 65535 →
      rleGo (some (b, cnt)) (List.replicate n (.byte b) ++ rest) =
        List.replicate ((cnt + n) / 65535) (b, 65535) ++
          (b, (cnt + n) % 65535) :: rleGo none rest := by
  intro n
  induction n with
  | zero =>
    intro cnt hcnt
    rw [List.replicate, List.nil_append, Nat.add_zero,
      Nat.div_eq_of_lt hcnt, Nat.mod_eq_of_lt hcnt, List.replicate,
      rleGo_flush hrest, List.nil_append]
  | succ n ih =>
    intro cnt hcnt
    rw [List.replicate_succ, List.cons_append, rleGo_cons_run]
    by_cases hchunk : cnt + 1 = 65535
    · rw [if_pos hchunk, ih 0 (by omega)]
      have hdiv : (cnt + (n + 1)) / 65535 = (0 + n) / 65535 + 1 := by omega
      have hmod : (cnt + (n + 1)) % 65535 = (0 + n) % 65535 := by omega
      rw [hdiv, hmod, List.replicate_succ, List.cons_append]
    · rw [if_neg hchunk, ih (cnt + 1) (by omega)]
      have : cnt + 1 + n = cnt + (n + 1) := by omega
      rw [this]

theorem rleRecords_cons_byte (b : Nat) (xs : List BWTByte) :
    rleRecords (.byte b :: xs) = rleGo (some (b, 1)) xs := rfl

theorem rleRecords_run {b : Nat} {rest : List BWTByte} (n : Nat) (hn : 1 ≤ n)
    (hrest : rest.head? ≠ some (.byte b)) :
    rleRecords (List.replicate n (.byte b) ++ rest) =
      List.replicate (n / 65535) (b, 65535) ++
        (b, n % 65535) :: rleRecords rest := by
  obtain ⟨m, rfl⟩ : ∃ m, n = m + 1 := ⟨n - 1, by omega⟩
  rw [List.replicate_succ, List.cons_append, rleRecords_cons_byte,
    rleGo_replicate hrest m 1 (by omega)]
  have : 1 + m = m + 1 := by omega
  rw [this]
  rfl

theorem rleGo_cons_other {b b' cnt : Nat} (hb : b' ≠ b) (xs : List BWTByte) :
    rleGo (some (b, cnt)) (.byte b' :: xs) = (b, cnt) :: rleGo (some (b', 1)) xs := by
  simp [rleGo, hb]

theorem rleBytesGo_cons_run {b cnt : Nat} (xs : List BWTByte) :
    rleBytesGo (some (b, cnt)) (.byte b :: xs) =
      if cnt + 1 = 65535 then (b :: u16le 65535) ++ rleBytesGo (some (b, 0)) xs
      else rleBytesGo (some (b, cnt + 1)) xs := by
  simp [rleBytesGo]

theorem rleBytesGo_cons_other {b b' cnt : Nat} (hb : b' ≠ b) (xs : List BWTByte) :
    rleBytesGo (some (b, cnt)) (.byte b' :: xs) =
      (b :: u16le cnt) ++ rleBytesGo (some (b', 1)) xs := by
  simp [rleBytesGo, hb]

theorem rleBytesGo_eq_flatMap (l : List BWTByte) :
    ∀ st, rleBytesGo st l = (rleGo st l).flatMap recordBytes := by
  induction l with
  | nil =>
    rintro (_ | ⟨b, cnt⟩)
    · rfl
    · rfl
  | cons x xs ih =>
    rintro (_ | ⟨b, cnt⟩)
    · cases x with
      | sentinel => exact ih none
      | byte b' => exact ih (some (b', 1))
    · cases x with
      | sentinel =>
        show (b :: u16le cnt) ++ rleBytesGo none xs
            = ((b, cnt) :: rleGo none xs).flatMap recordBytes
        rw [List.flatMap_cons, ih none]
        rfl
      | byte b' =>
        by_cases hb : b' = b
        · subst hb
          rw [rleBytesGo_cons_run, rleGo_cons_run]
          by_cases hchunk : cnt + 1 = 65535
          · rw [if_pos hchunk, if_pos hchunk, List.flatMap_cons, ih (some (b', 0))]
            rfl
          · rw [if_neg hchunk, if_neg hchunk]
            exact ih (some (b', cnt + 1))
        · rw [rleBytesGo_cons_other hb, rleGo_cons_other hb, List.flatMap_cons,
            ih (some (b', 1))]
          rfl

theorem rleGo_sum (l : List BWTByte) :
    ∀ st, ((rleGo st l).map (·.2)).sum =
      (match st with | none => 0 | some p => p.2) +
        l.countP (fun x => !x.is_sentinel) := by
  induction l with
  | nil => rintro (_ | ⟨b, cnt⟩) <;> simp [rleGo]
  | cons x xs ih =>
    rintro (_ | ⟨b, cnt⟩)
    · cases x with
      | sentinel =>
        simpa [rleGo, List.countP_cons, BWTByte.is_sentinel] using ih none
      | byte b' =>
        have := ih (some (b', 1))
        simp [rleGo, List.countP_cons, BWTByte.is_sentinel] at this ⊢
        omega
    · cases x with
      | sentinel =>
        have := ih none
        simp [rleGo, List.countP_cons, BWTByte.is_sentinel] at this ⊢
        omega
      | byte b' =>
        by_cases hb : b' = b
        · subst hb
          by_cases hchunk : cnt + 1 = 65535
          · have := ih (some (b', 0))
            simp [rleGo, hchunk, List.countP_cons, BWTByte.is_sentinel] at this ⊢
            omega
          · have := ih (some (b', cnt + 1))
            simp [rleGo, hchunk, List.countP_cons, BWTByte.is_sentinel] at this ⊢
            omega
        · have := ih (some (b', 1))
          simp [rleGo, hb, List.countP_cons, BWTByte.is_sentinel] at this ⊢
          omega

/-! ### Sorted-column head lemma and the divergence of `reverse_transform`
on sentinel-free input -/

theorem mergeSort_head_sentinel {l : List BWTByte} (h : .sentinel ∈ l) :
    (l.mergeSort BWTByte.le).head? = some .sentinel := by
  have hmem : BWTByte.sentinel ∈ l.mergeSort BWTByte.le := List.mem_mergeSort.mpr h
  have hp : (l.mergeSort BWTByte.le).Pairwise (fun a b => BWTByte.le a b = true) :=
    @List.sorted_mergeSort _ BWTByte.le
      (fun _ _ _ h₁ h₂ => BWTByte.le_trans h₁ h₂) BWTByte.le_total l
  cases hms : l.mergeSort BWTByte.le with
  | nil => rw [hms] at hmem; exact absurd hmem (by simp)
  | cons x t =>
    rw [hms] at hmem hp
    rcases List.mem_cons.mp hmem with hx | hx
    · rw [← hx]
      rfl
    · have hle : x.le .sentinel = true := (List.pairwise_cons.mp hp).1 _ hx
      have : x = .sentinel := by
        have := BWTByte.le_iff.mp hle
        cases x with
        | byte b => simp [BWTByte.toNat] at this
        | sentinel => rfl
      rw [this]
      rfl

theorem reverseLoop_byte0_none :
    ∀ (fuel : Nat) (col : Column) (acc : List BWTByte) (steps : Nat),
      reverseLoop [.byte 0] [.byte 0] [0] fuel col 0 acc steps = none := by
  intro fuel
  induction fuel with
  | zero => intro col acc steps; rfl
  | succ n ih =>
    intro col acc steps
    cases col with
    | left => exact ih .right acc steps
    | right => exact ih .left (.byte 0 :: acc) (steps + 1)

/-! ### Claim theorems that do not need the rotation-matrix analysis -/

/-- C2: the claim says the rotation engine yields exactly `L` rotations for
a length-`L` sequence, never `L + 1`. The code pushes the un-rotated state
and then all `L` successive rotations: on the length-1 sequence
`[Sentinel]` it yields 2 entries, the wrap-around duplicate included. -/
theorem claim_C2_rotation_count :
    ((BWTStr.all_rotations (BWTStr.new [])).map fun r => r.inner) =
        [[.sentinel], [.sentinel]] ∧
      (BWTStr.new ([] : List Nat)).len = 1 :=
  ⟨by decide, by decide⟩

/-- C3: for an input sequence containing exactly one sentinel, the head of
the sorted column computed by `as_sorted` is the sentinel, and the sorted
column's recorded anchor index is 0 (where the inversion loop starts). -/
theorem claim_C3_anchor {s : BWTStr} (h : s.inner.count .sentinel = 1) :
    (BWTStr.as_sorted s).inner.head? = some .sentinel ∧
      (BWTStr.as_sorted s).sentinel_index = 0 := by
  refine ⟨?_, rfl⟩
  have hmem : BWTByte.sentinel ∈ s.inner := List.count_pos_iff.mp (by omega)
  exact mergeSort_head_sentinel hmem

/-- Witness for C3 at the concrete sequence `[2, $, 0]`. -/
theorem claim_C3_witness :
    (BWTStr.mk [.byte 2, .sentinel, .byte 0] 1).inner.count .sentinel = 1 ∧
      ((BWTStr.as_sorted (BWTStr.mk [.byte 2, .sentinel, .byte 0] 1)).inner.head? =
          some .sentinel ∧
        (BWTStr.as_sorted (BWTStr.mk [.byte 2, .sentinel, .byte 0] 1)).sentinel_index = 0) :=
  ⟨by decide, claim_C3_anchor (by decide)⟩

/-- C5: the RLE encoder chunks every maximal run at 65535 repetitions:
a run of `n ≥ 1` copies of byte `b` (followed by anything that does not
extend the run) is emitted as `n / 65535` full `(b, 65535)` chunks followed
by the remainder record `(b, n % 65535)` — which is legally `(b, 0)` when
`n` is an exact multiple of 65535. -/
theorem claim_C5_rle_chunking {b : Nat} {rest : List BWTByte} (n : Nat) (hn : 1 ≤ n)
    (hrest : rest.head? ≠ some (.byte b)) :
    rleRecords (List.replicate n (.byte b) ++ rest) =
      List.replicate (n / 65535) (b, 65535) ++
        (b, n % 65535) :: rleRecords rest :=
  rleRecords_run n hn hrest

/-- Witness for C5: 70000 repeated bytes of value 5 produce exactly the two
records `(5, 65535)` and `(5, 4465)`. -/
theorem claim_C5_witness :
    1 ≤ 70000 ∧ ([] : List BWTByte).head? ≠ some (.byte 5) ∧
      rleRecords (List.replicate 70000 (.byte 5) ++ []) = [(5, 65535), (5, 4465)] :=
  ⟨by decide, by decide,
    (claim_C5_rle_chunking 70000 (by decide) (by decide)).trans (by decide)⟩

/-- C6: the serialized RLE output is exactly the 8-byte little-endian
`sentinel_index` header followed by the flattened records of one literal
byte plus two little-endian run-length bytes; the sentinel contributes no
record (the record run lengths account exactly for the non-sentinel
symbols). -/
theorem claim_C6_serial_format (s : BWTStr) :
    BWTStr.rle_write s =
        leBytes 8 s.sentinel_index ++ (rleRecords s.inner).flatMap recordBytes ∧
      ((rleRecords s.inner).map (·.2)).sum =
        s.inner.countP (fun x => !x.is_sentinel) := by
  constructor
  · unfold BWTStr.rle_write
    rw [rleBytesGo_eq_flatMap]
    rfl
  · simpa using rleGo_sum s.inner none

/-- C7: for empty input the forward transform yields the sequence whose
only symbol is the (implicit-in-serialization) sentinel — zero byte
symbols — with `sentinel_index` 0, and its RLE encoding is exactly the
8-byte zero header with no records. -/
theorem claim_C7_empty_input :
    (BWTStr.forward_transform (BWTStr.new [])).inner = [.sentinel] ∧
      (BWTStr.forward_transform (BWTStr.new [])).sentinel_index = 0 ∧
      rleRecords (BWTStr.forward_transform (BWTStr.new [])).inner = [] ∧
      BWTStr.rle_write (BWTStr.forward_transform (BWTStr.new [])) =
        List.replicate 8 0 := by
  have hsrt : BWTStr.all_rotations_sorted (BWTStr.new []) =
      BWTStr.all_rotations (BWTStr.new []) := by
    apply List.mergeSort_of_sorted
    decide
  have hfwd : BWTStr.forward_transform (BWTStr.new []) = BWTStr.mk [.sentinel] 0 := by
    unfold BWTStr.forward_transform
    rw [hsrt]
    decide
  rw [hfwd]
  exact ⟨rfl, rfl, rfl, by decide⟩

/-- C8: the claim says malformed inverse-transform input (no uniquely
minimal sentinel) is validated and surfaced as a typed error. The code
performs no validation: on the sentinel-free sequence `[Byte 0]` the loop
never breaks — for every fuel bound it has produced no result (and its
return type carries no error channel at all). -/
theorem claim_C8_no_validation :
    ∀ fuel : Nat, BWTStr.reverse_transform (BWTStr.mk [.byte 0] 0) fuel = none := by
  intro fuel
  show (reverseLoop [.byte 0] (BWTStr.as_sorted (BWTStr.mk [.byte 0] 0)).inner
      (BWTStr.rank_vec (BWTStr.mk [.byte 0] 0)) fuel .left 0 [] 0).map _ = none
  have h1 : (BWTStr.as_sorted (BWTStr.mk [.byte 0] 0)).inner = [.byte 0] := by
    unfold BWTStr.as_sorted
    simp
  have h2 : BWTStr.rank_vec (BWTStr.mk [.byte 0] 0) = [0] := rfl
  rw [h1, h2, reverseLoop_byte0_none]
  rfl

/-- C9: a compressed stream shorter than 8 bytes is rejected as a
malformed stream by the (spec-modelled) RLE decoder. -/
theorem claim_C9_short_stream {stream : List Nat} (h : stream.length < 8) :
    rle_read stream = .error .malformedStream := by
  unfold rle_read
  rw [if_pos h]

/-- Witness for C9 at the concrete 3-byte stream `[1, 2, 3]`. -/
theorem claim_C9_witness :
    ([1, 2, 3] : List Nat).length < 8 ∧
      rle_read [1, 2, 3] = .error .malformedStream :=
  ⟨by decide, claim_C9_short_stream (by decide)⟩

/-! ### The rotation list built by `all_rotations` -/

theorem BWTStr.rotate_eq {m : List BWTByte} {si : Nat} (h : m ≠ []) :
    BWTStr.rotate ⟨m, si⟩ = ⟨m.rotate 1, (si + m.length - 1) % m.length⟩ := by
  cases m with
  | nil => exact absurd rfl h
  | cons x xs =>
    show BWTStr.mk (xs ++ [x]) _ = _
    rw [List.rotate_cons_succ, List.rotate_zero]
    rfl

theorem rotationsAux_eq {l : List BWTByte} (hl : l ≠ []) :
    ∀ n k, k + n ≤ l.length →
      BWTStr.rotationsAux ⟨l.rotate k, l.length - k⟩ n =
        (List.range n).map fun j => ⟨l.rotate (k + 1 + j), l.length - (k + 1 + j)⟩ := by
  intro n
  induction n with
  | zero => intro k _; rfl
  | succ n ih =>
    intro k hk
    have hL : 1 ≤ l.length := by
      cases l with
      | nil => exact absurd rfl hl
      | cons x xs => simp
    have hrot_ne : l.rotate k ≠ [] := by
      simp [List.rotate_eq_nil_iff, hl]
    have hstep : BWTStr.rotate ⟨l.rotate k, l.length - k⟩ =
        ⟨l.rotate (k + 1), l.length - (k + 1)⟩ := by
      rw [BWTStr.rotate_eq hrot_ne, List.rotate_rotate, List.length_rotate]
      have h1 : l.length - k + l.length - 1 = (l.length - (k + 1)) + l.length := by omega
      rw [h1, Nat.add_mod_right, Nat.mod_eq_of_lt (by omega)]
    show BWTStr.rotate _ :: BWTStr.rotationsAux (BWTStr.rotate _) n = _
    rw [hstep, ih (k + 1) (by omega), List.range_succ_eq_map, List.map_cons, List.map_map]
    refine congrArg₂ _ (by rw [Nat.add_zero]) ?_
    apply List.map_congr_left
    intro j _
    simp only [Function.comp_apply]
    have : k + 1 + 1 + j = k + 1 + (j + 1) := by omega
    rw [this]

theorem all_rotations_new (B : List Nat) :
    BWTStr.all_rotations (BWTStr.new B) =
      (List.range (B.length + 2)).map
        fun k => ⟨(augmented B).rotate k, B.length + 1 - k⟩ := by
  have hne : augmented B ≠ [] := by simp [augmented]
  have hlen : (augmented B).length = B.length + 1 := by simp [augmented]
  have hnew : BWTStr.new B = ⟨(augmented B).rotate 0, (augmented B).length - 0⟩ := by
    rw [List.rotate_zero, Nat.sub_zero, hlen]
    rfl
  have hlen' : (BWTStr.new B).len = B.length + 1 := by
    simp [BWTStr.new, BWTStr.len]
  show BWTStr.new B :: BWTStr.rotationsAux (BWTStr.new B) (BWTStr.new B).len = _
  rw [hlen']
  conv_lhs => rw [hnew]
  rw [rotationsAux_eq hne (B.length + 1) 0 (by omega)]
  conv_rhs => rw [show B.length + 2 = (B.length + 1) + 1 from rfl,
    List.range_succ_eq_map, List.map_cons, List.map_map]
  refine congrArg₂ List.cons ?_ ?_
  · rw [List.rotate_zero, Nat.sub_zero, hlen, Nat.sub_zero]
  · apply List.map_congr_left
    intro j _
    simp only [Function.comp_apply, hlen]
    have : 0 + 1 + j = j + 1 := by omega
    rw [this]

/-! ### Sentinel positions in rotations of the augmented sequence -/

theorem augmented_getElem?_sentinel (B : List Nat) (j : Nat) :
    (augmented B)[j]? = some .sentinel ↔ j = B.length := by
  constructor
  · intro h
    by_contra hne
    rcases Nat.lt_or_ge j B.length with hj | hj
    · rw [augmented, List.getElem?_append_left (by simpa using hj),
        List.getElem?_map] at h
      rcases hB : B[j]? with _ | v
      · rw [hB] at h; simp at h
      · rw [hB] at h; simp at h
    · have hj' : B.length < j := by omega
      rw [augmented, List.getElem?_append_right (by simpa using hj),
        List.length_map] at h
      have : 1 ≤ j - B.length := by omega
      rw [List.getElem?_eq_none (by simpa using this)] at h
      exact absurd h (by simp)
  · rintro rfl
    rw [augmented, List.getElem?_append_right (by simp), List.length_map,
      Nat.sub_self]
    rfl

theorem rotate_getElem?_sentinel (B : List Nat) (k : Nat)
    (i : Nat) (hi : i < B.length + 1) :
    ((augmented B).rotate k)[i]? = some .sentinel ↔ (i + k) % (B.length + 1) = B.length := by
  have hlen : (augmented B).length = B.length + 1 := by simp [augmented]
  rw [List.getElem?_rotate (by omega : i < (augmented B).length), hlen,
    augmented_getElem?_sentinel]

theorem rotate_augmented_inj (B : List Nat) {j k : Nat}
    (hj : j < B.length + 1) (hk : k < B.length + 1)
    (h : (augmented B).rotate j = (augmented B).rotate k) : j = k := by
  set n := B.length with hn
  have h1 : ((augmented B).rotate j)[n - j]? = some .sentinel := by
    rw [rotate_getElem?_sentinel B j _ (by omega)]
    have : (n - j + j) = n := by omega
    rw [this, Nat.mod_eq_of_lt (by omega)]
  rw [h, rotate_getElem?_sentinel B k _ (by omega)] at h1
  by_cases hx : n - j + k < n + 1
  · rw [Nat.mod_eq_of_lt hx] at h1
    omega
  · have hge : n + 1 ≤ n - j + k := by omega
    rw [Nat.mod_eq_sub_mod hge, Nat.mod_eq_of_lt (by omega)] at h1
    omega

/-! ### Helpers for decomposing the sorted rotation list -/

theorem pair_sublist_decomp {α : Type*} {x y : α} :
    ∀ {s : List α}, [x, y].Sublist s → ∃ A M C, s = A ++ x :: (M ++ y :: C) := by
  intro s h
  induction s with
  | nil => cases h
  | cons z t ih =>
    cases h with
    | cons _ h' =>
      obtain ⟨A, M, C, rfl⟩ := ih h'
      exact ⟨z :: A, M, C, rfl⟩
    | cons₂ _ h' =>
      obtain ⟨M, C, rfl⟩ := List.append_of_mem (List.singleton_sublist.mp h')
      exact ⟨[], M, C, rfl⟩

theorem findIdx_append_of {α : Type*} {p : α → Bool} {x : α} {rest : List α} :
    ∀ {A : List α}, (∀ a ∈ A, p a = false) → p x = true →
      (A ++ x :: rest).findIdx p = A.length := by
  intro A
  induction A with
  | nil =>
    intro _ hx
    simp [List.findIdx_cons, hx]
  | cons a A ih =>
    intro hA hx
    have ha : p a = false := hA a (List.mem_cons_self a A)
    simp [List.findIdx_cons, ha, ih (fun b hb => hA b (List.mem_cons_of_mem a hb)) hx]

theorem filterMap_eq_map_of {α β : Type*} {f : α → Option β} {g : α → β} :
    ∀ {A : List α}, (∀ a ∈ A, f a = some (g a)) → A.filterMap f = A.map g := by
  intro A
  induction A with
  | nil => intro _; rfl
  | cons a A ih =>
    intro h
    simp only [List.filterMap_cons, h a (List.mem_cons_self a A), List.map_cons]
    rw [ih (fun b hb => h b (List.mem_cons_of_mem a hb))]

theorem getLast?_eq_some_lastB {m : List BWTByte} (h : m ≠ []) :
    m.getLast? = some (lastB m) := by
  cases hm : m.getLast? with
  | none => exact absurd (List.getLast?_eq_none_iff.mp hm) h
  | some x =>
    rw [lastB, List.getLastD_eq_getLast?, hm]
    rfl

theorem map_getD_range {α : Type*} (d : α) :
    ∀ l : List α, (List.range l.length).map (fun k => l.getD k d) = l := by
  intro l
  induction l with
  | nil => rfl
  | cons x xs ih =>
    rw [List.length_cons, List.range_succ_eq_map, List.map_cons, List.map_map]
    refine congrArg₂ List.cons rfl ?_
    calc (List.range xs.length).map ((fun k => (x :: xs).getD k d) ∘ Nat.succ)
        = (List.range xs.length).map (fun k => xs.getD k d) := by
          apply List.map_congr_left
          intro j _
          rfl
      _ = xs := ih

/-! ### Structure of the sorted rotation list -/

theorem sorted_rotations_decomp (B : List Nat) :
    ∃ As Cs : List BWTStr,
      BWTStr.all_rotations_sorted (BWTStr.new B) =
          As ++ ⟨augmented B, B.length + 1⟩ :: ⟨augmented B, 0⟩ :: Cs ∧
        (∀ a ∈ As, a.sentinel_index ≠ B.length + 1) ∧
        (∀ c ∈ Cs, c.sentinel_index ≠ B.length + 1) ∧
        (∀ r ∈ As ++ (⟨augmented B, 0⟩ : BWTStr) :: Cs, r.inner ≠ []) ∧
        (As ++ (⟨augmented B, 0⟩ : BWTStr) :: Cs).Pairwise
          (fun a b => lexLe a.inner b.inner = true) ∧
        (As ++ (⟨augmented B, 0⟩ : BWTStr) :: Cs).map (·.inner) ~
          (List.range (B.length + 1)).map ((augmented B).rotate ·) := by
  have hlen : (augmented B).length = B.length + 1 := by simp [augmented]
  have hne : augmented B ≠ [] := by simp [augmented]
  have hrot_ne : ∀ k, (augmented B).rotate k ≠ [] := by
    intro k
    simp [List.rotate_eq_nil_iff, hne]
  have hrots := all_rotations_new B
  have hf0 : (⟨(augmented B).rotate 0, B.length + 1 - 0⟩ : BWTStr)
      = ⟨augmented B, B.length + 1⟩ := by
    rw [List.rotate_zero, Nat.sub_zero]
  have hrotL : (augmented B).rotate (B.length + 1) = augmented B := by
    rw [← hlen, List.rotate_length]
  have hfL : (⟨(augmented B).rotate (B.length + 1), B.length + 1 - (B.length + 1)⟩ : BWTStr)
      = ⟨augmented B, 0⟩ := by
    rw [hrotL, Nat.sub_self]
  have hmem_rots : ∀ r ∈ BWTStr.all_rotations (BWTStr.new B),
      ∃ k, k ≤ B.length + 1 ∧ r = ⟨(augmented B).rotate k, B.length + 1 - k⟩ := by
    intro r hr
    rw [hrots] at hr
    obtain ⟨k, hk, rfl⟩ := List.mem_map.mp hr
    exact ⟨k, by simpa using Nat.lt_succ_iff.mp (by simpa using List.mem_range.mp hk), rfl⟩
  have hsi : ∀ r ∈ BWTStr.all_rotations (BWTStr.new B),
      (r.sentinel_index = B.length + 1 ↔ r = ⟨augmented B, B.length + 1⟩) := by
    intro r hr
    obtain ⟨k, hk, rfl⟩ := hmem_rots r hr
    constructor
    · intro h
      have hsival : B.length + 1 - k = B.length + 1 := h
      have hk0 : k = 0 := by omega
      rw [hk0]
      exact hf0
    · intro h
      have : B.length + 1 - k = B.length + 1 := congrArg BWTStr.sentinel_index h
      exact this
  have hnodup_rots : (BWTStr.all_rotations (BWTStr.new B)).Nodup := by
    apply List.Nodup.of_map BWTStr.sentinel_index
    rw [hrots, List.map_map]
    have heq : (BWTStr.sentinel_index ∘
          fun k => (⟨(augmented B).rotate k, B.length + 1 - k⟩ : BWTStr))
        = fun k => B.length + 1 - k := rfl
    rw [heq]
    refine List.Nodup.map_on ?_ (List.nodup_range _)
    intro x hx y hy hxy
    rw [List.mem_range] at hx hy
    omega
  have hpair : [(⟨augmented B, B.length + 1⟩ : BWTStr), ⟨augmented B, 0⟩].Sublist
      (BWTStr.all_rotations (BWTStr.new B)) := by
    rw [hrots]
    have hidx : [0, B.length + 1].Sublist (List.range (B.length + 2)) := by
      rw [List.range_succ_eq_map]
      refine List.Sublist.cons₂ 0 ?_
      rw [List.singleton_sublist, List.mem_map]
      exact ⟨B.length, by simp, rfl⟩
    have hmapped := hidx.map
      (fun k => (⟨(augmented B).rotate k, B.length + 1 - k⟩ : BWTStr))
    rw [List.map_cons, List.map_cons, List.map_nil, hf0, hfL] at hmapped
    exact hmapped
  have hperm : BWTStr.all_rotations_sorted (BWTStr.new B)
      ~ BWTStr.all_rotations (BWTStr.new B) :=
    List.mergeSort_perm _ _
  have hpw : (BWTStr.all_rotations_sorted (BWTStr.new B)).Pairwise
      (fun a b => lexLe a.inner b.inner = true) :=
    @List.sorted_mergeSort BWTStr (fun a b => lexLe a.inner b.inner)
      (fun _ _ _ h₁ h₂ => lexLe_trans h₁ h₂)
      (fun a b => lexLe_total a.inner b.inner) _
  have hpair_pw : ([(⟨augmented B, B.length + 1⟩ : BWTStr), ⟨augmented B, 0⟩]).Pairwise
      (fun a b => lexLe a.inner b.inner = true) := by
    refine List.pairwise_cons.mpr ⟨?_, List.pairwise_singleton _ _⟩
    intro b hb
    rw [List.mem_singleton.mp hb]
    exact lexLe_refl _
  have hsub_sorted : [(⟨augmented B, B.length + 1⟩ : BWTStr), ⟨augmented B, 0⟩].Sublist
      (BWTStr.all_rotations_sorted (BWTStr.new B)) :=
    @List.sublist_mergeSort BWTStr (fun a b => lexLe a.inner b.inner)
      (BWTStr.all_rotations (BWTStr.new B))
      (fun _ _ _ h₁ h₂ => lexLe_trans h₁ h₂)
      (fun a b => lexLe_total a.inner b.inner)
      _ hpair_pw hpair
  obtain ⟨As, Ms, Cs, hdecomp⟩ := pair_sublist_decomp hsub_sorted
  have hnodup : (BWTStr.all_rotations_sorted (BWTStr.new B)).Nodup :=
    (hperm.nodup_iff).mpr hnodup_rots
  have hMs : Ms = [] := by
    cases Ms with
    | nil => rfl
    | cons m Ms' =>
      exfalso
      have hm_mem : m ∈ BWTStr.all_rotations_sorted (BWTStr.new B) := by
        rw [hdecomp]
        simp
      have hpw' := hpw
      rw [hdecomp] at hpw'
      have hmid := (List.pairwise_append.mp hpw').2.1
      have h1 : lexLe (augmented B) m.inner = true :=
        (List.pairwise_cons.mp hmid).1 m (by simp)
      have htail := (List.pairwise_cons.mp hmid).2
      have h2 : lexLe m.inner (augmented B) = true :=
        (List.pairwise_append.mp htail).2.2 m (by simp) ⟨augmented B, 0⟩ (by simp)
      have hminner : m.inner = augmented B := (lexLe_antisymm h1 h2).symm
      have hm_rots : m ∈ BWTStr.all_rotations (BWTStr.new B) := hperm.subset hm_mem
      obtain ⟨k, hk, hmk⟩ := hmem_rots m hm_rots
      have hnd := hnodup
      rw [hdecomp] at hnd
      have hnd_mid := (List.nodup_append.mp hnd).2.1
      have hL_not : (⟨augmented B, B.length + 1⟩ : BWTStr) ∉ (m :: Ms') ++ ⟨augmented B, 0⟩ :: Cs :=
        (List.nodup_cons.mp hnd_mid).1
      have hnd_tail := (List.nodup_cons.mp hnd_mid).2
      have hdisj := (List.nodup_append.mp hnd_tail).2.2
      have hm_ne_L : m ≠ ⟨augmented B, B.length + 1⟩ := by
        intro hcontra
        exact hL_not (by rw [← hcontra]; simp)
      have hm_ne_0 : m ≠ ⟨augmented B, 0⟩ := by
        intro hcontra
        exact hdisj (List.mem_cons_self m Ms') (by rw [hcontra]; simp)
      have hinner_k : (augmented B).rotate k = augmented B := by
        rw [hmk] at hminner
        exact hminner
      rcases Nat.lt_or_ge k (B.length + 1) with hk' | hk'
      · have hk0 : k = 0 := rotate_augmented_inj B hk' (by omega)
          (by rw [hinner_k, List.rotate_zero])
        apply hm_ne_L
        rw [hmk, hk0]
        exact hf0
      · have hkL : k = B.length + 1 := by omega
        apply hm_ne_0
        rw [hmk, hkL]
        exact hfL
  subst hMs
  rw [List.nil_append] at hdecomp
  have hAs_not0 : (⟨augmented B, B.length + 1⟩ : BWTStr) ∉ As := by
    intro hcontra
    have hnd := hnodup
    rw [hdecomp] at hnd
    exact (List.nodup_append.mp hnd).2.2 hcontra (by simp)
  have hCs_not0 : (⟨augmented B, B.length + 1⟩ : BWTStr) ∉ Cs := by
    intro hcontra
    have hnd := hnodup
    rw [hdecomp] at hnd
    have hnd_mid := (List.nodup_append.mp hnd).2.1
    exact (List.nodup_cons.mp hnd_mid).1 (by simp [hcontra])
  have hmem_sorted : ∀ r ∈ As ++ (⟨augmented B, 0⟩ : BWTStr) :: Cs,
      r ∈ BWTStr.all_rotations (BWTStr.new B) := by
    intro r hr
    apply hperm.subset
    rw [hdecomp]
    rcases List.mem_append.mp hr with h | h
    · exact List.mem_append.mpr (Or.inl h)
    · exact List.mem_append.mpr (Or.inr (List.mem_cons_of_mem _ h))
  refine ⟨As, Cs, hdecomp, ?_, ?_, ?_, ?_, ?_⟩
  · intro a ha
    intro hcontra
    have ha_rots : a ∈ BWTStr.all_rotations (BWTStr.new B) :=
      hmem_sorted a (List.mem_append.mpr (Or.inl ha))
    have := (hsi a ha_rots).mp hcontra
    rw [this] at ha
    exact hAs_not0 ha
  · intro c hc
    intro hcontra
    have hc_rots : c ∈ BWTStr.all_rotations (BWTStr.new B) :=
      hmem_sorted c (List.mem_append.mpr (Or.inr (List.mem_cons_of_mem _ hc)))
    have := (hsi c hc_rots).mp hcontra
    rw [this] at hc
    exact hCs_not0 hc
  · intro r hr
    obtain ⟨k, _, rfl⟩ := hmem_rots r (hmem_sorted r hr)
    exact hrot_ne k
  · have hsubl : (As ++ (⟨augmented B, 0⟩ : BWTStr) :: Cs).Sublist
        (BWTStr.all_rotations_sorted (BWTStr.new B)) := by
      rw [hdecomp]
      exact (List.sublist_cons_self _ _).append_left As
    exact hpw.sublist hsubl
  · have hstep_a : (BWTStr.all_rotations_sorted (BWTStr.new B)).map (·.inner)
        ~ (BWTStr.all_rotations (BWTStr.new B)).map (·.inner) := hperm.map _
    have hstep_b : (BWTStr.all_rotations (BWTStr.new B)).map (·.inner)
        = (List.range (B.length + 2)).map ((augmented B).rotate ·) := by
      rw [hrots, List.map_map]
      rfl
    have hstep_c : (BWTStr.all_rotations_sorted (BWTStr.new B)).map (·.inner)
        = As.map (·.inner) ++ augmented B :: augmented B :: Cs.map (·.inner) := by
      rw [hdecomp]
      simp
    have hstep_e : (List.range (B.length + 2)).map ((augmented B).rotate ·)
        = augmented B :: (List.range (B.length + 1)).map
            (((augmented B).rotate ·) ∘ Nat.succ) := by
      rw [show B.length + 2 = (B.length + 1) + 1 from rfl, List.range_succ_eq_map,
        List.map_cons, List.map_map, List.rotate_zero]
    have hchain : augmented B :: (As.map (·.inner) ++ augmented B :: Cs.map (·.inner))
        ~ augmented B :: (List.range (B.length + 1)).map
            (((augmented B).rotate ·) ∘ Nat.succ) := by
      calc augmented B :: (As.map (·.inner) ++ augmented B :: Cs.map (·.inner))
          ~ As.map (·.inner) ++ augmented B :: augmented B :: Cs.map (·.inner) :=
            List.perm_middle.symm
        _ = (BWTStr.all_rotations_sorted (BWTStr.new B)).map (·.inner) := hstep_c.symm
        _ ~ (List.range (B.length + 2)).map ((augmented B).rotate ·) := by
            rw [← hstep_b]
            exact hstep_a
        _ = _ := hstep_e
    have hstep_f : As.map (·.inner) ++ augmented B :: Cs.map (·.inner)
        ~ (List.range (B.length + 1)).map (((augmented B).rotate ·) ∘ Nat.succ) :=
      hchain.cons_inv
    have hstep_g : (List.range (B.length + 1)).map (((augmented B).rotate ·) ∘ Nat.succ)
        ~ (List.range (B.length + 1)).map ((augmented B).rotate ·) := by
      have hkey : augmented B :: (List.range (B.length + 1)).map
            (((augmented B).rotate ·) ∘ Nat.succ)
          = (List.range (B.length + 1)).map ((augmented B).rotate ·)
              ++ [augmented B] := by
        calc augmented B :: (List.range (B.length + 1)).map
              (((augmented B).rotate ·) ∘ Nat.succ)
            = (List.range (B.length + 2)).map ((augmented B).rotate ·) := hstep_e.symm
          _ = (List.range (B.length + 1) ++ [B.length + 1]).map
                ((augmented B).rotate ·) := by
              rw [← List.range_succ]
          _ = (List.range (B.length + 1)).map ((augmented B).rotate ·)
              ++ [augmented B] := by
              rw [List.map_append, List.map_singleton, hrotL]
      have hp1 : augmented B :: (List.range (B.length + 1)).map
            (((augmented B).rotate ·) ∘ Nat.succ)
          ~ augmented B :: (List.range (B.length + 1)).map ((augmented B).rotate ·) := by
        rw [hkey]
        exact List.perm_append_singleton _ _
      exact hp1.cons_inv
    have hrows_eq : (As ++ (⟨augmented B, 0⟩ : BWTStr) :: Cs).map (·.inner)
        = As.map (·.inner) ++ augmented B :: Cs.map (·.inner) := by
      simp
    rw [hrows_eq]
    exact hstep_f.trans hstep_g

theorem forward_rows (B : List Nat) :
    ∃ A C : List (List BWTByte),
      (BWTStr.forward_transform (BWTStr.new B)).inner
          = (A ++ augmented B :: C).map lastB ∧
        (BWTStr.forward_transform (BWTStr.new B)).sentinel_index = A.length ∧
        (∀ row ∈ A ++ augmented B :: C, row ≠ []) ∧
        (A ++ augmented B :: C).Pairwise (fun u v => lexLe u v = true) ∧
        (A ++ augmented B :: C) ~
          (List.range (B.length + 1)).map ((augmented B).rotate ·) := by
  obtain ⟨As, Cs, hdec, hAs, hCs, hne_rows, hpw, hperm⟩ := sorted_rotations_decomp B
  have hlen_new : (BWTStr.new B).len = B.length + 1 := by
    simp [BWTStr.new, BWTStr.len]
  have hlne : augmented B ≠ [] := by simp [augmented]
  have hrows_eq : (As ++ (⟨augmented B, 0⟩ : BWTStr) :: Cs).map (·.inner)
      = As.map (·.inner) ++ augmented B :: Cs.map (·.inner) := by
    simp
  have hg_As : ∀ a ∈ As, (if a.sentinel_index = (BWTStr.new B).len then none
      else a.inner.getLast?) = some (lastB a.inner) := by
    intro a ha
    rw [hlen_new, if_neg (hAs a ha)]
    exact getLast?_eq_some_lastB (hne_rows a (List.mem_append.mpr (Or.inl ha)))
  have hg_Cs : ∀ c ∈ Cs, (if c.sentinel_index = (BWTStr.new B).len then none
      else c.inner.getLast?) = some (lastB c.inner) := by
    intro c hc
    rw [hlen_new, if_neg (hCs c hc)]
    exact getLast?_eq_some_lastB
      (hne_rows c (List.mem_append.mpr (Or.inr (List.mem_cons_of_mem _ hc))))
  refine ⟨As.map (·.inner), Cs.map (·.inner), ?_, ?_, ?_, ?_, ?_⟩
  · show (BWTStr.all_rotations_sorted (BWTStr.new B)).filterMap
        (fun r => if r.sentinel_index = (BWTStr.new B).len then none
          else r.inner.getLast?) = _
    rw [hdec, List.filterMap_append, List.filterMap_cons]
    have hx : (if (⟨augmented B, B.length + 1⟩ : BWTStr).sentinel_index = (BWTStr.new B).len
        then (none : Option BWTByte)
        else (⟨augmented B, B.length + 1⟩ : BWTStr).inner.getLast?) = none := by
      rw [hlen_new]
      exact if_pos rfl
    rw [hx, List.filterMap_cons]
    have hy : (if (⟨augmented B, 0⟩ : BWTStr).sentinel_index = (BWTStr.new B).len
        then (none : Option BWTByte)
        else (⟨augmented B, 0⟩ : BWTStr).inner.getLast?) = some (lastB (augmented B)) := by
      rw [hlen_new]
      rw [if_neg (by omega : ¬(0 : Nat) = B.length + 1)]
      exact getLast?_eq_some_lastB hlne
    rw [hy, filterMap_eq_map_of hg_As, filterMap_eq_map_of hg_Cs]
    simp [List.map_map]
    rfl
  · show (BWTStr.all_rotations_sorted (BWTStr.new B)).findIdx
        (fun r => r.sentinel_index == (BWTStr.new B).len) = _
    rw [hdec, List.length_map]
    apply findIdx_append_of
    · intro a ha
      rw [hlen_new]
      exact beq_eq_false_iff_ne.mpr (hAs a ha)
    · rw [hlen_new]
      exact beq_self_eq_true _
  · intro row hrow
    rw [← hrows_eq] at hrow
    obtain ⟨r, hr, rfl⟩ := List.mem_map.mp hrow
    exact hne_rows r hr
  · rw [← hrows_eq]
    exact List.pairwise_map.mpr hpw
  · rw [← hrows_eq]
    exact hperm

/-! ### The forward output holds exactly one sentinel, at `sentinel_index` -/

theorem lastB_concat (X : List BWTByte) (x : BWTByte) : lastB (X ++ [x]) = x := by
  rw [lastB, List.getLastD_concat]

theorem lastB_augmented (B : List Nat) : lastB (augmented B) = .sentinel :=
  lastB_concat _ _

theorem lastB_rotate_sentinel (B : List Nat) {k : Nat} (hk : k < B.length + 1) :
    lastB ((augmented B).rotate k) = .sentinel ↔ k = 0 := by
  have hlen : (augmented B).length = B.length + 1 := by simp [augmented]
  have hne : (augmented B).rotate k ≠ [] := by
    simp [List.rotate_eq_nil_iff, augmented]
  have hsome : ((augmented B).rotate k).getLast? = some (lastB ((augmented B).rotate k)) :=
    getLast?_eq_some_lastB hne
  rw [List.getLast?_eq_getElem?, List.length_rotate, hlen] at hsome
  constructor
  · intro h
    rw [h] at hsome
    have := (rotate_getElem?_sentinel B k (B.length + 1 - 1) (by omega)).mp hsome
    rcases Nat.eq_zero_or_pos k with hk0 | hk0
    · exact hk0
    · exfalso
      have harith : B.length + 1 - 1 + k = (k - 1) + (B.length + 1) := by omega
      rw [harith, Nat.add_mod_right, Nat.mod_eq_of_lt (by omega)] at this
      omega
  · rintro rfl
    have : ((augmented B).rotate 0)[B.length + 1 - 1]? = some .sentinel := by
      rw [rotate_getElem?_sentinel B 0 (B.length + 1 - 1) (by omega), Nat.add_zero,
        Nat.mod_eq_of_lt (by omega)]
      omega
    rw [this] at hsome
    exact (Option.some_inj.mp hsome).symm

theorem rows_nodup (B : List Nat) :
    ((List.range (B.length + 1)).map ((augmented B).rotate ·)).Nodup := by
  refine List.Nodup.map_on ?_ (List.nodup_range _)
  intro x hx y hy hxy
  rw [List.mem_range] at hx hy
  exact rotate_augmented_inj B hx hy hxy

theorem filterMap_byteVal_map_byte {X : List BWTByte} (h : ∀ x ∈ X, x ≠ .sentinel) :
    (X.filterMap BWTByte.byteVal).map BWTByte.byte = X := by
  induction X with
  | nil => rfl
  | cons x xs ih =>
    cases x with
    | sentinel => exact absurd rfl (h _ (List.mem_cons_self _ _))
    | byte b =>
      simp only [List.filterMap_cons, BWTByte.byteVal, List.map_cons]
      rw [ih fun y hy => h y (List.mem_cons_of_mem _ hy)]

theorem insertIdx_at_length {α : Type*} (v : α) :
    ∀ (X Y : List α), (X ++ Y).insertIdx X.length v = X ++ v :: Y := by
  intro X
  induction X with
  | nil => intro Y; rfl
  | cons x xs ih =>
    intro Y
    rw [List.cons_append, List.length_cons, List.insertIdx_succ_cons, ih, List.cons_append]

/-- C10: the forward-transform output contains exactly one sentinel, the
stored `sentinel_index` is that sentinel's position in the output, and
removing the sentinel (the serialized representation) then reinserting it
at `sentinel_index` with `new_with_sentinal` reproduces the output. -/
theorem claim_C10_forward_sentinel (B : List Nat) :
    (BWTStr.forward_transform (BWTStr.new B)).inner.count .sentinel = 1 ∧
      (BWTStr.forward_transform (BWTStr.new B)).inner[
        (BWTStr.forward_transform (BWTStr.new B)).sentinel_index]? = some .sentinel ∧
      BWTStr.new_with_sentinal
          ((BWTStr.forward_transform (BWTStr.new B)).inner.filterMap BWTByte.byteVal)
          (BWTStr.forward_transform (BWTStr.new B)).sentinel_index
        = BWTStr.forward_transform (BWTStr.new B) := by
  obtain ⟨A, C, hinner, hsi, hne, hpw, hperm⟩ := forward_rows B
  have hnodup : (A ++ augmented B :: C).Nodup :=
    (hperm.nodup_iff).mpr (rows_nodup B)
  have hrow_rot : ∀ row ∈ A ++ augmented B :: C,
      ∃ k, k < B.length + 1 ∧ row = (augmented B).rotate k := by
    intro row hrow
    have := hperm.subset hrow
    obtain ⟨k, hk, rfl⟩ := List.mem_map.mp this
    exact ⟨k, List.mem_range.mp hk, rfl⟩
  have hlA : augmented B ∉ A := by
    intro hcontra
    exact (List.nodup_append.mp hnodup).2.2 hcontra (List.mem_cons_self _ _)
  have hlC : augmented B ∉ C := by
    intro hcontra
    have := (List.nodup_append.mp hnodup).2.1
    exact (List.nodup_cons.mp this).1 hcontra
  have hside : ∀ row, (row ∈ A ∨ row ∈ C) → lastB row ≠ .sentinel := by
    intro row hrow hcontra
    have hmem : row ∈ A ++ augmented B :: C := by
      rcases hrow with h | h
      · exact List.mem_append.mpr (Or.inl h)
      · exact List.mem_append.mpr (Or.inr (List.mem_cons_of_mem _ h))
    obtain ⟨k, hk, rfl⟩ := hrow_rot row hmem
    have hk0 : k = 0 := (lastB_rotate_sentinel B hk).mp hcontra
    rw [hk0, List.rotate_zero] at hrow
    rcases hrow with h | h
    · exact hlA h
    · exact hlC h
  have hinner' : (BWTStr.forward_transform (BWTStr.new B)).inner
      = A.map lastB ++ .sentinel :: C.map lastB := by
    rw [hinner, List.map_append, List.map_cons, lastB_augmented]
  have hnotinA : BWTByte.sentinel ∉ A.map lastB := by
    intro hcontra
    obtain ⟨row, hrow, heq⟩ := List.mem_map.mp hcontra
    exact hside row (Or.inl hrow) heq
  have hnotinC : BWTByte.sentinel ∉ C.map lastB := by
    intro hcontra
    obtain ⟨row, hrow, heq⟩ := List.mem_map.mp hcontra
    exact hside row (Or.inr hrow) heq
  refine ⟨?_, ?_, ?_⟩
  · rw [hinner', List.count_append, List.count_cons]
    rw [List.count_eq_zero.mpr hnotinA, List.count_eq_zero.mpr hnotinC]
    simp
  · rw [hinner', hsi]
    rw [List.getElem?_append_right (by simp : (A.map lastB).length ≤ A.length)]
    simp
  · rw [hinner', hsi]
    have hfm : (A.map lastB ++ .sentinel :: C.map lastB).filterMap BWTByte.byteVal
        = (A.map lastB).filterMap BWTByte.byteVal
          ++ (C.map lastB).filterMap BWTByte.byteVal := by
      rw [List.filterMap_append, List.filterMap_cons]
      rfl
    have hmapA : ((A.map lastB).filterMap BWTByte.byteVal).map BWTByte.byte = A.map lastB :=
      filterMap_byteVal_map_byte fun x hx => by
        obtain ⟨row, hrow, rfl⟩ := List.mem_map.mp hx
        exact hside row (Or.inl hrow)
    have hmapC : ((C.map lastB).filterMap BWTByte.byteVal).map BWTByte.byte = C.map lastB :=
      filterMap_byteVal_map_byte fun x hx => by
        obtain ⟨row, hrow, rfl⟩ := List.mem_map.mp hx
        exact hside row (Or.inr hrow)
    have hlenA : ((A.map lastB).filterMap BWTByte.byteVal).length = A.length := by
      have := congrArg List.length hmapA
      simpa using this
    rw [BWTStr.new_with_sentinal, hfm, List.map_append, hmapA, hmapC]
    have hsplit : (A.map lastB ++ C.map lastB).insertIdx A.length .sentinel
        = A.map lastB ++ .sentinel :: C.map lastB := by
      have := insertIdx_at_length BWTByte.sentinel (A.map lastB) (C.map lastB)
      rwa [List.length_map] at this
    rw [hsplit, ← hinner', ← hsi]

/-! ### Rank table, occurrence-index and filter-index characterizations -/

theorem rank_go_getElem? (xs : List BWTByte) :
    ∀ (occ : Nat → Nat) (i : Nat) (b : Nat), xs[i]? = some (.byte b) →
      (BWTStr.rank_go occ xs)[i]? = some (occ b + (xs.take i).count (.byte b)) := by
  induction xs with
  | nil =>
    intro occ i b h
    simp at h
  | cons x xs ih =>
    intro occ i b h
    cases i with
    | zero =>
      rw [List.getElem?_cons_zero] at h
      injection h with h
      subst h
      simp [BWTStr.rank_go]
    | succ i =>
      rw [List.getElem?_cons_succ] at h
      cases x with
      | sentinel =>
        show (0 :: BWTStr.rank_go occ xs)[i + 1]? = _
        rw [List.getElem?_cons_succ, ih occ i b h, List.take_succ_cons, List.count_cons]
        simp
      | byte c =>
        show (occ c :: BWTStr.rank_go (fun x => if x = c then occ x + 1 else occ x) xs)[i + 1]?
            = _
        rw [List.getElem?_cons_succ,
          ih (fun x => if x = c then occ x + 1 else occ x) i b h,
          List.take_succ_cons, List.count_cons]
        by_cases hbc : b = c
        · subst hbc
          simp
          omega
        · have h1 : (if b = c then occ b + 1 else occ b) = occ b := if_neg hbc
          have h2 : (BWTByte.byte c == BWTByte.byte b) = false :=
            beq_eq_false_iff_ne.mpr (by simp [Ne.symm hbc])
          rw [h1, h2]
          simp

theorem nth_occurrence_of_count {v : BWTByte} :
    ∀ (lst : List BWTByte) (n j r : Nat), lst[j]? = some v →
      (lst.take j).count v = r →
      (((List.enumFrom n lst).filter fun p => p.2 == v)[r]?).map (·.1) = some (n + j) := by
  intro lst
  induction lst with
  | nil =>
    intro n j r hj
    simp at hj
  | cons x xs ih =>
    intro n j r hxj hcount
    rw [List.enumFrom_cons]
    cases j with
    | zero =>
      rw [List.getElem?_cons_zero] at hxj
      injection hxj with hxj
      subst hxj
      rw [List.take_zero, List.count_nil] at hcount
      subst hcount
      rw [List.filter_cons_of_pos (by simp)]
      simp
    | succ j =>
      rw [List.getElem?_cons_succ] at hxj
      rw [List.take_succ_cons, List.count_cons] at hcount
      by_cases hx : v = x
      · subst hx
        simp only [beq_self_eq_true, if_pos] at hcount
        rw [List.filter_cons_of_pos (by simp)]
        obtain ⟨r', rfl⟩ : ∃ r', r = r' + 1 := ⟨(xs.take j).count v, by omega⟩
        have hr' : (xs.take j).count v = r' := by omega
        rw [List.getElem?_cons_succ, ih (n + 1) j r' hxj hr']
        have : n + 1 + j = n + (j + 1) := by omega
        rw [this]
      · have hbeq : (x == v) = false :=
          beq_eq_false_iff_ne.mpr fun h => hx h.symm
        rw [hbeq] at hcount
        have hr : (xs.take j).count v = r := by simpa using hcount
        rw [List.filter_cons_of_neg (by simp [hbeq])]
        rw [ih (n + 1) j r hxj hr]
        have : n + 1 + j = n + (j + 1) := by omega
        rw [this]

theorem nth_occurrence_eq {lst : List BWTByte} {v : BWTByte} {j r : Nat}
    (hv : lst[j]? = some v) (hr : (lst.take j).count v = r) :
    nth_occurrence lst v r = some j := by
  have h := nth_occurrence_of_count lst 0 j r hv hr
  rw [Nat.zero_add] at h
  exact h

theorem filter_getElem?_of {α : Type*} {p : α → Bool} :
    ∀ (l : List α) (i r : Nat) (x : α), l[i]? = some x → p x = true →
      (l.take i).countP p = r → (l.filter p)[r]? = some x := by
  intro l
  induction l with
  | nil =>
    intro i r x h
    simp at h
  | cons a l ih =>
    intro i r x hx hp hcount
    cases i with
    | zero =>
      rw [List.getElem?_cons_zero] at hx
      injection hx with hx
      subst hx
      rw [List.take_zero, List.countP_nil] at hcount
      subst hcount
      rw [List.filter_cons_of_pos hp]
      simp
    | succ i =>
      rw [List.getElem?_cons_succ] at hx
      rw [List.take_succ_cons, List.countP_cons] at hcount
      by_cases ha : p a = true
      · rw [if_pos ha] at hcount
        rw [List.filter_cons_of_pos ha]
        obtain ⟨r', rfl⟩ : ∃ r', r = r' + 1 := ⟨(l.take i).countP p, by omega⟩
        rw [List.getElem?_cons_succ]
        exact ih i r' x hx hp (by omega)
      · rw [if_neg ha] at hcount
        rw [List.filter_cons_of_neg (by simpa using ha)]
        exact ih i r x hx hp (by omega)

theorem filter_getElem?_exists {α : Type*} {p : α → Bool} :
    ∀ (l : List α) (r : Nat) (x : α), (l.filter p)[r]? = some x →
      ∃ i, i < l.length ∧ l[i]? = some x ∧ (l.take i).countP p = r := by
  intro l
  induction l with
  | nil =>
    intro r x h
    simp at h
  | cons a l ih =>
    intro r x h
    by_cases ha : p a = true
    · rw [List.filter_cons_of_pos ha] at h
      cases r with
      | zero =>
        rw [List.getElem?_cons_zero] at h
        injection h with h
        subst h
        exact ⟨0, by simp, by simp, by simp⟩
      | succ r =>
        rw [List.getElem?_cons_succ] at h
        obtain ⟨i, hi, hx, hcount⟩ := ih r x h
        refine ⟨i + 1, by simpa using hi, by simpa using hx, ?_⟩
        rw [List.take_succ_cons, List.countP_cons, if_pos ha]
        omega
    · rw [List.filter_cons_of_neg (by simpa using ha)] at h
      obtain ⟨i, hi, hx, hcount⟩ := ih r x h
      refine ⟨i + 1, by simpa using hi, by simpa using hx, ?_⟩
      rw [List.take_succ_cons, List.countP_cons, if_neg ha]
      omega

/-! ### First- and last-symbol views of the rotation rows -/

theorem headB_cons (x : BWTByte) (xs : List BWTByte) : headB (x :: xs) = x := by
  rw [headB, List.headD_eq_head?_getD, List.head?_cons]
  rfl

theorem head?_eq_some_headB {m : List BWTByte} (h : m ≠ []) :
    m.head? = some (headB m) := by
  cases m with
  | nil => exact absurd rfl h
  | cons x xs => rw [headB_cons, List.head?_cons]

theorem lexLe_headB {u v : List BWTByte} (hu : u ≠ []) (hv : v ≠ [])
    (h : lexLe u v = true) : (headB u).le (headB v) = true := by
  cases u with
  | nil => exact absurd rfl hu
  | cons x xs =>
    cases v with
    | nil => exact absurd rfl hv
    | cons y ys =>
      rw [headB_cons, headB_cons]
      exact lexLe_head h

theorem headB_rotate (B : List Nat) {k : Nat} (hk : k < B.length + 1) :
    headB ((augmented B).rotate k) = (augmented B).getD k .sentinel := by
  have hlen : (augmented B).length = B.length + 1 := by simp [augmented]
  have hne : (augmented B).rotate k ≠ [] := by
    simp [List.rotate_eq_nil_iff, augmented]
  have h1 := head?_eq_some_headB hne
  rw [List.head?_eq_getElem?, List.getElem?_rotate (by omega : (0 : Nat) < (augmented B).length),
    Nat.zero_add, hlen, Nat.mod_eq_of_lt hk] at h1
  rw [List.getD_eq_getElem?_getD, h1]
  rfl

theorem lastB_rotate (B : List Nat) {k : Nat} (hk : k < B.length + 1) :
    lastB ((augmented B).rotate (k + 1)) = (augmented B).getD k .sentinel := by
  have hlen : (augmented B).length = B.length + 1 := by simp [augmented]
  have hne : (augmented B).rotate (k + 1) ≠ [] := by
    simp [List.rotate_eq_nil_iff, augmented]
  have h1 := getLast?_eq_some_lastB hne
  rw [List.getLast?_eq_getElem?, List.length_rotate, hlen,
    List.getElem?_rotate (by omega : B.length + 1 - 1 < (augmented B).length), hlen] at h1
  have harith : B.length + 1 - 1 + (k + 1) = (B.length + 1) + k := by omega
  rw [harith, Nat.add_mod_left, Nat.mod_eq_of_lt hk] at h1
  rw [List.getD_eq_getElem?_getD, h1]
  rfl

theorem rotate_cons_head_dropLast (B : List Nat) {k : Nat} (_hk : k < B.length + 1) :
    headB ((augmented B).rotate k) :: ((augmented B).rotate (k + 1)).dropLast
      = (augmented B).rotate k := by
  have hne : (augmented B).rotate k ≠ [] := by
    simp [List.rotate_eq_nil_iff, augmented]
  cases hm : (augmented B).rotate k with
  | nil => exact absurd hm hne
  | cons hd tl =>
    have hrot1 : (augmented B).rotate (k + 1) = tl ++ [hd] := by
      rw [← List.rotate_rotate, hm, List.rotate_cons_succ, List.rotate_zero]
    rw [hrot1, List.dropLast_concat, headB_cons]

/-! ### The sorted column computed by `as_sorted` is the matrix first column -/

theorem map_lastB_rows_perm (B : List Nat) :
    ((List.range (B.length + 1)).map
        fun k => lastB ((augmented B).rotate k)) ~ augmented B := by
  have hlen : (augmented B).length = B.length + 1 := by simp [augmented]
  have hmap : ((List.range (B.length + 1)).map
      fun k => lastB ((augmented B).rotate k))
      = (List.range (B.length + 1)).map
          fun k => ((augmented B).rotate B.length).getD k .sentinel := by
    apply List.map_congr_left
    intro k hk
    rw [List.mem_range] at hk
    have h1 : lastB ((augmented B).rotate k) = (augmented B).getD ((B.length + k) % (B.length + 1)) .sentinel := by
      rcases Nat.eq_zero_or_pos k with rfl | hkpos
      · rw [List.rotate_zero]
        have : (B.length + 0) % (B.length + 1) = B.length := by
          rw [Nat.add_zero, Nat.mod_eq_of_lt (by omega)]
        rw [this]
        rw [lastB_augmented]
        have hsent : (augmented B).getD B.length .sentinel = .sentinel := by
          rw [List.getD_eq_getElem?_getD,
            (augmented_getElem?_sentinel B B.length).mpr rfl]
          rfl
        rw [hsent]
      · obtain ⟨k', rfl⟩ : ∃ k', k = k' + 1 := ⟨k - 1, by omega⟩
        rw [lastB_rotate B (by omega : k' < B.length + 1)]
        have : (B.length + (k' + 1)) % (B.length + 1) = k' := by
          have h2 : B.length + (k' + 1) = k' + (B.length + 1) := by omega
          rw [h2, Nat.add_mod_right, Nat.mod_eq_of_lt (by omega)]
        rw [this]
    rw [h1]
    have h3 : ((augmented B).rotate B.length).getD k .sentinel
        = (augmented B).getD ((B.length + k) % (B.length + 1)) .sentinel := by
      rw [List.getD_eq_getElem?_getD, List.getD_eq_getElem?_getD,
        List.getElem?_rotate (by omega : k < (augmented B).length), hlen, Nat.add_comm]
    rw [h3]
  rw [hmap]
  have h4 := map_getD_range BWTByte.sentinel ((augmented B).rotate B.length)
  rw [List.length_rotate, hlen] at h4
  rw [h4]
  exact (augmented B).rotate_perm B.length

theorem map_headB_rows_eq (B : List Nat) :
    ((List.range (B.length + 1)).map
        fun k => headB ((augmented B).rotate k)) = augmented B := by
  have hlen : (augmented B).length = B.length + 1 := by simp [augmented]
  have hmap : ((List.range (B.length + 1)).map
      fun k => headB ((augmented B).rotate k))
      = (List.range (B.length + 1)).map fun k => (augmented B).getD k .sentinel := by
    apply List.map_congr_left
    intro k hk
    rw [List.mem_range] at hk
    exact headB_rotate B hk
  rw [hmap]
  have h4 := map_getD_range BWTByte.sentinel (augmented B)
  rw [hlen] at h4
  exact h4

theorem as_sorted_forward (B : List Nat) {rows : List (List BWTByte)}
    (hpw : rows.Pairwise fun u v => lexLe u v = true)
    (hperm : rows ~ (List.range (B.length + 1)).map ((augmented B).rotate ·))
    (hne : ∀ row ∈ rows, row ≠ []) :
    (rows.map lastB).mergeSort BWTByte.le = rows.map headB := by
  refine @List.Perm.eq_of_sorted BWTByte (fun a b => a.le b = true) _ _ ?_ ?_ ?_ ?_
  · intro a b _ _ h1 h2
    exact BWTByte.le_antisymm h1 h2
  · exact @List.sorted_mergeSort BWTByte BWTByte.le
      (fun _ _ _ h₁ h₂ => BWTByte.le_trans h₁ h₂) BWTByte.le_total _
  · apply List.pairwise_map.mpr
    refine List.Pairwise.imp_of_mem ?_ hpw
    intro u v hu hv h
    exact lexLe_headB (hne u hu) (hne v hv) h
  · have h1 : (rows.map lastB).mergeSort BWTByte.le ~ rows.map lastB :=
      List.mergeSort_perm _ _
    have h2 : rows.map lastB ~ ((List.range (B.length + 1)).map
        ((augmented B).rotate ·)).map lastB := hperm.map _
    have h3 : ((List.range (B.length + 1)).map ((augmented B).rotate ·)).map lastB
        = (List.range (B.length + 1)).map fun k => lastB ((augmented B).rotate k) := by
      rw [List.map_map]
      rfl
    have h5 : rows.map headB ~ ((List.range (B.length + 1)).map
        ((augmented B).rotate ·)).map headB := hperm.map _
    have h6 : ((List.range (B.length + 1)).map ((augmented B).rotate ·)).map headB
        = (List.range (B.length + 1)).map fun k => headB ((augmented B).rotate k) := by
      rw [List.map_map]
      rfl
    refine (h1.trans (h2.trans ?_)).trans h5.symm
    rw [h3, h6, map_headB_rows_eq]
    exact map_lastB_rows_perm B

/-! ### The LF bijection between rows ending in and starting with a byte -/

theorem filter_last_head (B : List Nat) {rows : List (List BWTByte)}
    (hpw : rows.Pairwise fun u v => lexLe u v = true)
    (hperm : rows ~ (List.range (B.length + 1)).map ((augmented B).rotate ·)) (b : Nat) :
    (rows.filter fun u => lastB u == BWTByte.byte b).map
        (fun u => BWTByte.byte b :: u.dropLast)
      = rows.filter fun u => headB u == BWTByte.byte b := by
  have hlen : (augmented B).length = B.length + 1 := by simp [augmented]
  have hnodup : rows.Nodup := (hperm.nodup_iff).mpr (rows_nodup B)
  have hrow_mem : ∀ row ∈ rows, ∃ k, k < B.length + 1 ∧ row = (augmented B).rotate k := by
    intro row hrow
    obtain ⟨k, hk, rfl⟩ := List.mem_map.mp (hperm.subset hrow)
    exact ⟨k, List.mem_range.mp hk, rfl⟩
  have hrot_mem : ∀ k, k < B.length + 1 → (augmented B).rotate k ∈ rows := fun k hk =>
    hperm.mem_iff.mpr (List.mem_map.mpr ⟨k, List.mem_range.mpr hk, rfl⟩)
  have hrow_ne : ∀ row ∈ rows, row ≠ [] := by
    intro row hrow
    obtain ⟨k, _, rfl⟩ := hrow_mem row hrow
    simp [List.rotate_eq_nil_iff, augmented]
  have hrow_len : ∀ row ∈ rows, row.length = B.length + 1 := by
    intro row hrow
    obtain ⟨k, _, rfl⟩ := hrow_mem row hrow
    rw [List.length_rotate, hlen]
  have hlastdec : ∀ row ∈ rows, lastB row = .byte b → row = row.dropLast ++ [.byte b] := by
    intro row hrow hlast
    have hne := hrow_ne row hrow
    have hsplit := List.dropLast_append_getLast hne
    have h1 := getLast?_eq_some_lastB hne
    rw [List.getLast?_eq_getLast row hne] at h1
    have h2 : row.getLast hne = lastB row := Option.some_inj.mp h1
    rw [h2, hlast] at hsplit
    exact hsplit.symm
  have hrotR_of_mem : ∀ u ∈ rows, lastB u = .byte b →
      ∃ k', k' < B.length + 1 ∧ BWTByte.byte b :: u.dropLast = (augmented B).rotate k' := by
    intro u hu hlast
    obtain ⟨k, hk, hk_eq⟩ := hrow_mem u hu
    have hud := hlastdec u hu hlast
    have hrot1 : (BWTByte.byte b :: u.dropLast).rotate 1 = u := by
      rw [List.rotate_cons_succ, List.rotate_zero]
      exact hud.symm
    rcases Nat.eq_zero_or_pos k with rfl | hkpos
    · refine ⟨B.length, by omega, ?_⟩
      apply List.rotate_injective 1
      show (BWTByte.byte b :: u.dropLast).rotate 1 = ((augmented B).rotate B.length).rotate 1
      rw [hrot1, List.rotate_rotate, ← hlen, List.rotate_length, hk_eq, List.rotate_zero]
    · obtain ⟨k'', rfl⟩ : ∃ k'', k = k'' + 1 := ⟨k - 1, by omega⟩
      refine ⟨k'', by omega, ?_⟩
      apply List.rotate_injective 1
      show (BWTByte.byte b :: u.dropLast).rotate 1 = ((augmented B).rotate k'').rotate 1
      rw [hrot1, List.rotate_rotate, hk_eq]
  refine @List.Perm.eq_of_sorted (List BWTByte) (fun u v => lexLe u v = true) _ _
    ?_ ?_ ?_ ?_
  · intro x y _ _ h1 h2
    exact lexLe_antisymm h1 h2
  · apply List.pairwise_map.mpr
    refine List.Pairwise.imp_of_mem ?_ (hpw.filter _)
    intro u v hu hv h
    have hu' := List.mem_filter.mp hu
    have hv' := List.mem_filter.mp hv
    have hub : lastB u = .byte b := by simpa using hu'.2
    have hvb : lastB v = .byte b := by simpa using hv'.2
    have hud := hlastdec u hu'.1 hub
    have hvd := hlastdec v hv'.1 hvb
    show lexLe (.byte b :: u.dropLast) (.byte b :: v.dropLast) = true
    have hlencmp : u.dropLast.length = v.dropLast.length := by
      rw [List.length_dropLast, List.length_dropLast, hrow_len u hu'.1, hrow_len v hv'.1]
    have hcmp : lexCmp (.byte b :: u.dropLast) (.byte b :: v.dropLast) = lexCmp u v := by
      rw [lexCmp_cons_self]
      conv_rhs => rw [hud, hvd]
      rw [lexCmp_snoc _ hlencmp]
    simp only [lexLe] at h ⊢
    rw [hcmp]
    exact h
  · exact hpw.filter _
  · have hnodupL : ((rows.filter fun u => lastB u == BWTByte.byte b).map
        (fun u => BWTByte.byte b :: u.dropLast)).Nodup := by
      refine List.Nodup.map_on ?_ (hnodup.filter _)
      intro u hu v hv heq
      have hu' := List.mem_filter.mp hu
      have hv' := List.mem_filter.mp hv
      have hub : lastB u = .byte b := by simpa using hu'.2
      have hvb : lastB v = .byte b := by simpa using hv'.2
      have hd : u.dropLast = v.dropLast := by
        injection heq
      rw [hlastdec u hu'.1 hub, hlastdec v hv'.1 hvb, hd]
    have hnodupR : (rows.filter fun u => headB u == BWTByte.byte b).Nodup :=
      hnodup.filter _
    rw [List.perm_ext_iff_of_nodup hnodupL hnodupR]
    intro x
    constructor
    · intro hx
      obtain ⟨u, hu, rfl⟩ := List.mem_map.mp hx
      have hu' := List.mem_filter.mp hu
      have hub : lastB u = .byte b := by simpa using hu'.2
      obtain ⟨k', hk', hrotR⟩ := hrotR_of_mem u hu'.1 hub
      refine List.mem_filter.mpr ⟨?_, ?_⟩
      · rw [hrotR]
        exact hrot_mem k' hk'
      · rw [headB_cons]
        simp
    · intro hx
      have hx' := List.mem_filter.mp hx
      have hxb : headB x = .byte b := by simpa using hx'.2
      have hxne := hrow_ne x hx'.1
      obtain ⟨k, hk, hk_eq⟩ := hrow_mem x hx'.1
      cases hm : x with
      | nil => exact absurd hm hxne
      | cons hd tl =>
        have hhd : hd = .byte b := by
          rw [hm, headB_cons] at hxb
          exact hxb
        have hrot1 : x.rotate 1 = tl ++ [hd] := by
          rw [hm, List.rotate_cons_succ, List.rotate_zero]
        have hu_mem : x.rotate 1 ∈ rows := by
          rw [hk_eq, List.rotate_rotate]
          rcases Nat.lt_or_ge (k + 1) (B.length + 1) with h | h
          · exact hrot_mem (k + 1) h
          · have hkL : k + 1 = B.length + 1 := by omega
            rw [hkL, ← hlen, List.rotate_length, ← List.rotate_zero (augmented B)]
            exact hrot_mem 0 (by omega)
        have hP : lastB (x.rotate 1) = .byte b := by
          rw [hrot1, lastB_concat, hhd]
        refine List.mem_map.mpr ⟨x.rotate 1, List.mem_filter.mpr ⟨hu_mem, by simp [hP]⟩, ?_⟩
        rw [hrot1, List.dropLast_concat, hhd]

theorem count_map_take_eq_countP (g : List BWTByte → BWTByte) (rows : List (List BWTByte))
    (v : BWTByte) (i : Nat) :
    ((rows.map g).take i).count v = (rows.take i).countP (fun u => g u == v) := by
  rw [← List.map_take, List.count_eq_countP, List.countP_map]
  rfl

theorem lf_step (B : List Nat) {rows : List (List BWTByte)}
    (hpw : rows.Pairwise fun u v => lexLe u v = true)
    (hperm : rows ~ (List.range (B.length + 1)).map ((augmented B).rotate ·))
    {i : Nat} {row : List BWTByte} {b : Nat}
    (hrow : rows[i]? = some row) (hlast : lastB row = .byte b) :
    ∃ i', rows[i']? = some (.byte b :: row.dropLast) ∧
      nth_occurrence (rows.map headB) (.byte b)
        (((rows.map lastB).take i).count (.byte b)) = some i' := by
  have hP : (fun u => lastB u == BWTByte.byte b) row = true := by simp [hlast]
  have hfP : (rows.filter fun u => lastB u == BWTByte.byte b)[
      (rows.take i).countP (fun u => lastB u == BWTByte.byte b)]? = some row :=
    filter_getElem?_of rows i _ row hrow hP rfl
  have hfQ : (rows.filter fun u => headB u == BWTByte.byte b)[
      (rows.take i).countP (fun u => lastB u == BWTByte.byte b)]?
      = some (BWTByte.byte b :: row.dropLast) := by
    rw [← filter_last_head B hpw hperm b, List.getElem?_map, hfP]
    rfl
  obtain ⟨i', hi'lt, hxi', hcntQ⟩ := filter_getElem?_exists rows _ _ hfQ
  refine ⟨i', hxi', ?_⟩
  rw [count_map_take_eq_countP]
  apply nth_occurrence_eq
  · rw [List.getElem?_map, hxi']
    simp [headB_cons]
  · rw [count_map_take_eq_countP]
    exact hcntQ


/-! ### Running the inversion loop along the rotation cycle

The equation compiler splits `reverseLoop` into conditional equations, so
explicit step lemmas are proved once and used for every unfolding. -/

theorem reverseLoop_stop {rt : List BWTByte} {i : Nat} (lf : List BWTByte) (ranks : List Nat)
    (fuel : Nat) (col : Column) (acc : List BWTByte) (steps : Nat)
    (h : rt[i]? = some .sentinel) :
    reverseLoop rt lf ranks (fuel + 1) col i acc steps = some (acc, steps) := by
  rw [reverseLoop.eq_def]
  simp only [h]

theorem reverseLoop_left_byte {rt : List BWTByte} {i b : Nat} (lf : List BWTByte)
    (ranks : List Nat) (fuel : Nat) (acc : List BWTByte) (steps : Nat)
    (h : rt[i]? = some (.byte b)) :
    reverseLoop rt lf ranks (fuel + 1) .left i acc steps
      = reverseLoop rt lf ranks fuel .right i acc steps := by
  rw [reverseLoop.eq_def]
  simp only [h]

theorem reverseLoop_right_byte {rt : List BWTByte} {i b rank i2 : Nat}
    (lf : List BWTByte) (ranks : List Nat) (fuel : Nat) (acc : List BWTByte) (steps : Nat)
    (h : rt[i]? = some (.byte b)) (hr : ranks[i]? = some rank)
    (hn : nth_occurrence lf (.byte b) rank = some i2) :
    reverseLoop rt lf ranks (fuel + 1) .right i acc steps
      = reverseLoop rt lf ranks fuel .left i2 (.byte b :: acc) (steps + 1) := by
  rw [reverseLoop.eq_def]
  simp only [h, hr, hn]

theorem augmented_getElem?_byte (B : List Nat) {k : Nat} (hk : k < B.length) :
    ∃ b, (augmented B)[k]? = some (BWTByte.byte b) := by
  obtain ⟨b, hb⟩ : ∃ b, B[k]? = some b := by
    rw [List.getElem?_eq_getElem hk]
    exact ⟨_, rfl⟩
  refine ⟨b, ?_⟩
  show (B.map BWTByte.byte ++ [BWTByte.sentinel])[k]? = _
  rw [List.getElem?_append_left (by simpa using hk), List.getElem?_map, hb]
  rfl

theorem reverse_loop_run (B : List Nat) {rows : List (List BWTByte)}
    (hpw : rows.Pairwise fun u v => lexLe u v = true)
    (hperm : rows ~ (List.range (B.length + 1)).map ((augmented B).rotate ·)) :
    ∀ k, k < B.length + 1 → ∀ (i steps : Nat) (acc : List BWTByte) (fuel : Nat),
      rows[i]? = some ((augmented B).rotate k) → 2 * k + 1 ≤ fuel →
      reverseLoop (rows.map lastB) (rows.map headB)
          (BWTStr.rank_go (fun _ => 0) (rows.map lastB)) fuel .left i acc steps
        = some ((augmented B).take k ++ acc, steps + k) := by
  intro k
  induction k with
  | zero =>
    intro _ i steps acc fuel hrow hfuel
    obtain ⟨f, rfl⟩ : ∃ f, fuel = f + 1 := ⟨fuel - 1, by omega⟩
    have hrt : (rows.map lastB)[i]? = some BWTByte.sentinel := by
      rw [List.getElem?_map, hrow]
      show some (lastB ((augmented B).rotate 0)) = _
      rw [List.rotate_zero, lastB_augmented]
    rw [reverseLoop_stop _ _ _ _ _ _ hrt]
    simp
  | succ k ih =>
    intro hk i steps acc fuel hrow hfuel
    obtain ⟨f, rfl⟩ : ∃ f, fuel = f + 1 + 1 := ⟨fuel - 2, by omega⟩
    have hk' : k < B.length := by omega
    have hkk : k < B.length + 1 := by omega
    obtain ⟨b, hbk⟩ := augmented_getElem?_byte B hk'
    have hgetd : (augmented B).getD k .sentinel = .byte b := by
      rw [List.getD_eq_getElem?_getD, hbk]
      rfl
    have hlast : lastB ((augmented B).rotate (k + 1)) = .byte b := by
      rw [lastB_rotate B hkk, hgetd]
    have hrt : (rows.map lastB)[i]? = some (BWTByte.byte b) := by
      rw [List.getElem?_map, hrow]
      show some (lastB ((augmented B).rotate (k + 1))) = _
      rw [hlast]
    have hranks := rank_go_getElem? (rows.map lastB) (fun _ => 0) i b hrt
    simp only [Nat.zero_add] at hranks
    obtain ⟨i2, hrow2, hocc⟩ := lf_step B hpw hperm hrow hlast
    have hnext : BWTByte.byte b :: ((augmented B).rotate (k + 1)).dropLast
        = (augmented B).rotate k := by
      rw [← rotate_cons_head_dropLast B hkk, headB_rotate B hkk, hgetd]
    rw [hnext] at hrow2
    rw [reverseLoop_left_byte _ _ _ _ _ hrt,
      reverseLoop_right_byte _ _ _ _ _ hrt hranks hocc,
      ih hkk i2 (steps + 1) (BWTByte.byte b :: acc) f hrow2 (by omega)]
    have htake : (augmented B).take (k + 1) = (augmented B).take k ++ [BWTByte.byte b] := by
      rw [List.take_succ, hbk]
      rfl
    rw [htake, List.append_assoc, List.singleton_append]
    have harith : steps + 1 + k = steps + (k + 1) := by omega
    rw [harith]

/-! ### The loop starts on the row that is the sentinel-headed rotation -/

theorem rows_head_eq (B : List Nat) {rows : List (List BWTByte)}
    (hpw : rows.Pairwise fun u v => lexLe u v = true)
    (hperm : rows ~ (List.range (B.length + 1)).map ((augmented B).rotate ·)) :
    rows[0]? = some ((augmented B).rotate B.length) := by
  have hmem : (augmented B).rotate B.length ∈ rows := by
    apply hperm.mem_iff.mpr
    exact List.mem_map.mpr ⟨B.length, List.mem_range.mpr (by omega), rfl⟩
  cases rows with
  | nil => simp at hmem
  | cons r0 rest =>
    have hle : lexLe r0 ((augmented B).rotate B.length) = true := by
      rcases List.mem_cons.mp hmem with h | h
      · rw [← h]
        exact lexLe_refl _
      · exact (List.pairwise_cons.mp hpw).1 _ h
    have hr0mem : r0 ∈ (List.range (B.length + 1)).map ((augmented B).rotate ·) :=
      hperm.mem_iff.mp (List.mem_cons_self _ _)
    obtain ⟨j, hj, hr0⟩ := List.mem_map.mp hr0mem
    rw [List.mem_range] at hj
    by_cases hjL : j = B.length
    · rw [List.getElem?_cons_zero, ← hr0, hjL]
    · exfalso
      have hjlt : j < B.length := by omega
      obtain ⟨b, hb⟩ := augmented_getElem?_byte B hjlt
      have hh0 : headB r0 = BWTByte.byte b := by
        rw [← hr0, headB_rotate B hj, List.getD_eq_getElem?_getD, hb]
        rfl
      have hhL : headB ((augmented B).rotate B.length) = BWTByte.sentinel := by
        rw [headB_rotate B (by omega), List.getD_eq_getElem?_getD,
          (augmented_getElem?_sentinel B B.length).mpr rfl]
        rfl
      have hne0 : r0 ≠ [] := by
        rw [← hr0]
        simp [List.rotate_eq_nil_iff, augmented]
      have hneL : (augmented B).rotate B.length ≠ [] := by
        simp [List.rotate_eq_nil_iff, augmented]
      have hsle := lexLe_headB hne0 hneL hle
      rw [hh0, hhL] at hsle
      simp [BWTByte.le, BWTByte.cmp] at hsle

theorem filterMap_byteVal_of_map (B : List Nat) :
    B.filterMap (BWTByte.byteVal ∘ BWTByte.byte) = B := by
  induction B with
  | nil => rfl
  | cons b bs ih =>
    simp only [List.filterMap_cons, Function.comp, BWTByte.byteVal]
    rw [ih]

/-! ### The round-trip and loop-step claims -/

/-- C1: for every byte buffer `B`, running the forward transform on the
sentinel-augmented sequence, then the inverse transform (with any fuel
covering the loop's `2·|B| + 1` iterations), and stripping the sentinel
as `main.rs` does recovers exactly `B`. -/
theorem claim_C1_round_trip (B : List Nat) (_hB : ∀ b ∈ B, b < 256) :
    ∀ fuel, 2 * B.length + 1 ≤ fuel →
      (((BWTStr.new B).forward_transform).reverse_transform fuel).map
          (fun s => s.inner.filterMap BWTByte.byteVal) = some B := by
  intro fuel hfuel
  obtain ⟨A, C, hinner, hsi, hne, hpw, hperm⟩ := forward_rows B
  set rows := A ++ augmented B :: C with hrowsdef
  have hrow0 := rows_head_eq B hpw hperm
  have hrun := reverse_loop_run B hpw hperm B.length (by omega) 0 0 [] fuel hrow0 (by omega)
  have hleft : ((BWTStr.new B).forward_transform.as_sorted).inner = rows.map headB := by
    show ((BWTStr.new B).forward_transform.inner).mergeSort BWTByte.le = _
    rw [hinner]
    exact as_sorted_forward B hpw hperm hne
  have hranks : BWTStr.rank_vec ((BWTStr.new B).forward_transform)
      = BWTStr.rank_go (fun _ => 0) (rows.map lastB) := by
    show BWTStr.rank_go (fun _ => 0) ((BWTStr.new B).forward_transform.inner) = _
    rw [hinner]
  have htake : (augmented B).take B.length = B.map BWTByte.byte := by
    show (B.map BWTByte.byte ++ [BWTByte.sentinel]).take B.length = _
    exact List.take_left' (by simp)
  rw [BWTStr.reverse_transform, hinner, hleft, hranks, hrun, htake]
  simp [filterMap_byteVal_of_map]

/-- A closed instance of C1 at the spec's scenario-1 input "banana". -/
theorem claim_C1_witness :
    (∀ b ∈ [98, 97, 110, 97, 110, 97], b < 256) ∧
      2 * [98, 97, 110, 97, 110, 97].length + 1 ≤ 13 ∧
      (((BWTStr.new [98, 97, 110, 97, 110, 97]).forward_transform).reverse_transform 13).map
          (fun s => s.inner.filterMap BWTByte.byteVal) = some [98, 97, 110, 97, 110, 97] :=
  ⟨by decide, by decide,
    claim_C1_round_trip [98, 97, 110, 97, 110, 97] (by decide) 13 (by decide)⟩

/-- C4: on a genuine BWT output — the forward transform of a
sentinel-augmented buffer, which has length `L = |B| + 1` and holds exactly
one, minimal, sentinel — the inversion loop terminates (given fuel for its
`2·L − 1` iterations) and performs exactly `L − 1` productive steps. -/
theorem claim_C4_loop_steps (B : List Nat) (fuel : Nat)
    (hfuel : 2 * B.length + 1 ≤ fuel) :
    ((BWTStr.new B).forward_transform).len = B.length + 1 ∧
      ((BWTStr.new B).forward_transform).reverse_transform_steps fuel
        = some (((BWTStr.new B).forward_transform).len - 1) := by
  obtain ⟨A, C, hinner, hsi, hne, hpw, hperm⟩ := forward_rows B
  set rows := A ++ augmented B :: C with hrowsdef
  have hlen : ((BWTStr.new B).forward_transform).len = B.length + 1 := by
    show ((BWTStr.new B).forward_transform).inner.length = _
    rw [hinner, List.length_map, hperm.length_eq, List.length_map, List.length_range]
  refine ⟨hlen, ?_⟩
  have hrow0 := rows_head_eq B hpw hperm
  have hrun := reverse_loop_run B hpw hperm B.length (by omega) 0 0 [] fuel hrow0 (by omega)
  have hleft : ((BWTStr.new B).forward_transform.as_sorted).inner = rows.map headB := by
    show ((BWTStr.new B).forward_transform.inner).mergeSort BWTByte.le = _
    rw [hinner]
    exact as_sorted_forward B hpw hperm hne
  have hranks : BWTStr.rank_vec ((BWTStr.new B).forward_transform)
      = BWTStr.rank_go (fun _ => 0) (rows.map lastB) := by
    show BWTStr.rank_go (fun _ => 0) ((BWTStr.new B).forward_transform.inner) = _
    rw [hinner]
  rw [BWTStr.reverse_transform_steps, hinner, hleft, hranks, hrun, hlen]
  simp

/-- A closed instance of C4 at the three-byte buffer `[5, 5, 7]`. -/
theorem claim_C4_witness :
    2 * [5, 5, 7].length + 1 ≤ 7 ∧
      (((BWTStr.new [5, 5, 7]).forward_transform).len = [5, 5, 7].length + 1 ∧
        ((BWTStr.new [5, 5, 7]).forward_transform).reverse_transform_steps 7
          = some (((BWTStr.new [5, 5, 7]).forward_transform).len - 1)) :=
  ⟨by decide, claim_C4_loop_steps [5, 5, 7] 7 (by decide)⟩
